import Mathlib

/-!
Verification of the playlist/song aggregation and persistence layer of a
local music-library manager (Jukebox): the history-migration algorithm
(`migrate_playback_history.py`), the `Song` model (`models/song.py`) and the
`Playlist` / `Playlists` collection (`models/playlists.py`).

Python data is embedded shallowly:
* a JSON play-event record becomes `PlayRec`: the fields the migrator reads
  or writes (`url`, `ts`, `timestamp`, `play_count`, `timestamps`) are
  explicit `Option` fields (`none` = key absent; a JSON `null` behaves like
  an absent key for every read the migrator performs), and all remaining
  fields are carried opaquely in `rest`;
* Python dicts keyed by strings become association lists with in-place
  update (`updAssoc`), which preserves insertion order exactly like a
  CPython dict;
* `time.time()` is threaded as an explicit `now : Int` argument;
* file side effects of the migrator are a two-field state `MigrationFiles`.
-/

/-! ## History migrator (`migrate_playback_history.py`) -/

/-- One record of `playback_history.json` as the migrator sees it.
`url` models `item.get('url', '')` (an absent key reads as `""`). -/
structure PlayRec where
  url : String
  ts : Option Int
  timestamp : Option Int
  play_count : Option Int
  timestamps : Option String
  rest : List (String × String)
deriving DecidableEq, Repr

/-- `ts = item.get('ts') or item.get('timestamp', 0)`: the `ts` field when
present and nonzero (Python falsiness), else the `timestamp` field, else 0. -/
def effTs (r : PlayRec) : Int :=
  match r.ts with
  | some t => if t = 0 then r.timestamp.getD 0 else t
  | none => r.timestamp.getD 0

/-- `aggregated[url].get('ts', 0)`: the raw `ts` field of a stored record. -/
def rawTs (r : PlayRec) : Int := r.ts.getD 0

/-- `d[k] = v` on a Python dict modelled as an insertion-ordered
association list: update in place, or append a new key at the end. -/
def updAssoc {β : Type} (k : String) (v : β) : List (String × β) → List (String × β)
  | [] => [(k, v)]
  | kv :: rest => if kv.1 = k then (k, v) :: rest else kv :: updAssoc k v rest

/-- One loop iteration updating `aggregated`: skip empty urls, store the
item under its url when the key is new or the item's effective timestamp
strictly exceeds the stored record's raw `ts` field. -/
def aggStep (agg : List (String × PlayRec)) (r : PlayRec) : List (String × PlayRec) :=
  if r.url = "" then agg
  else
    match agg.lookup r.url with
    | none => updAssoc r.url r agg
    | some rep => if rawTs rep < effTs r then updAssoc r.url r agg else agg

/-- `url_timestamps[url].append(ts)` on a `defaultdict(list)`. -/
def appendAssoc (k : String) (x : Int) : List (String × List Int) → List (String × List Int)
  | [] => [(k, [x])]
  | kv :: rest => if kv.1 = k then (k, kv.2 ++ [x]) :: rest else kv :: appendAssoc k x rest

/-- One loop iteration updating `url_timestamps`: skip empty urls, record
the effective timestamp when it is positive.  (The Python script updates
`url_timestamps` and `aggregated` in the same loop; the two accumulators
are independent, so they are folded separately here.) -/
def tsStep (acc : List (String × List Int)) (r : PlayRec) : List (String × List Int) :=
  if r.url = "" then acc
  else if 0 < effTs r then appendAssoc r.url (effTs r) acc else acc

/-- Insertion into an ascending duplicate-free list. -/
def insertSortedDedup (x : Int) : List Int → List Int
  | [] => [x]
  | y :: ys =>
    if x < y then x :: y :: ys
    else if x = y then y :: ys
    else y :: insertSortedDedup x ys

/-- `sorted(set(l))`. -/
def sortedDedup (l : List Int) : List Int := l.foldl (fun acc x => insertSortedDedup x acc) []

/-- `timestamps[-1] if timestamps else 0`. -/
def lastOr0 (l : List Int) : Int :=
  match l.getLast? with
  | some t => t
  | none => 0

/-- The in-place update of a representative record: overwrite `ts` and its
alias `timestamp` with the latest timestamp, set `play_count` and the
comma-joined `timestamps` string. -/
def finalizeRec (rep : PlayRec) (tsl : List Int) : PlayRec :=
  { rep with
    ts := some (lastOr0 tsl),
    timestamp := some (lastOr0 tsl),
    play_count := some (tsl.length : Int),
    timestamps := some (String.intercalate "," (tsl.map toString)) }

/-- Sort key of the final sort: `x.get('ts', 0)`. -/
def tsKey (r : PlayRec) : Int := r.ts.getD 0

/-- Stable descending insertion by `tsKey` (placed before the first strictly
smaller key, after equal keys — the unique stable order, hence the same
result as Python's stable `list.sort(..., reverse=True)`). -/
def insertByTsDesc (r : PlayRec) : List PlayRec → List PlayRec
  | [] => [r]
  | x :: xs => if tsKey x ≤ tsKey r then r :: x :: xs else x :: insertByTsDesc r xs

/-- Stable sort, descending by `tsKey`. -/
def sortByTsDesc : List PlayRec → List PlayRec
  | [] => []
  | x :: xs => insertByTsDesc x (sortByTsDesc xs)

/-- The pure core of `migrate_playback_history`: aggregate the event list
into one record per non-empty url and sort descending by last-played time. -/
def migrateRecords (data : List PlayRec) : List PlayRec :=
  let agg := data.foldl aggStep []
  let urlTs := data.foldl tsStep []
  let migrated := agg.map (fun kv => finalizeRec kv.2 (sortedDedup ((urlTs.lookup kv.1).getD [])))
  sortByTsDesc migrated

/-- The two files the migrator touches: `playback_history.json` and its
`.backup` sibling (`none` = the backup file does not exist). -/
structure MigrationFiles where
  main : List PlayRec
  backup : Option (List PlayRec)
deriving DecidableEq, Repr

/-- One successful run of `migrate_playback_history`: write the backup only
if absent (verbatim pre-migration data), then rewrite the main file. -/
def runMigration (fs : MigrationFiles) : MigrationFiles :=
  { main := migrateRecords fs.main,
    backup :=
      match fs.backup with
      | some b => some b
      | none => some fs.main }

/-- An input event carrying only `url` and `ts`, as in the C1 scenario. -/
def mkEvent (u : String) (t : Int) : PlayRec := ⟨u, some t, none, none, none, []⟩

/-! ### Specification-side restatement of the migration algorithm

The following definitions follow the wording of the (amended) spec claim for
the migrator — group the events by url, per url scan for a representative
and collect the positive timestamps — to be compared with `migrateRecords`,
which is the direct embedding of the Python single-pass loop. -/

/-- Per-url representative scan: keep the first event, replace it whenever a
later event's effective timestamp strictly exceeds the raw `ts` field of the
current representative. -/
def repStep (acc : Option PlayRec) (e : PlayRec) : Option PlayRec :=
  match acc with
  | none => some e
  | some rep => if rawTs rep < effTs e then some e else some rep

/-- Accumulate an element unless already seen. -/
def dStep (acc : List String) (u : String) : List String :=
  if u ∈ acc then acc else acc ++ [u]

/-- First occurrence of each element, in order. -/
def dedupFirst (l : List String) : List String := l.foldl dStep []

/-- The distinct non-empty urls, in order of first appearance. -/
def specNonEmptyUrls (data : List PlayRec) : List String :=
  dedupFirst ((data.filter (fun r => r.url != "")).map (fun r => r.url))

/-- The representative record of a url, per the per-url scan rule. -/
def specRepFor (u : String) (data : List PlayRec) : Option PlayRec :=
  (data.filter (fun r => r.url == u)).foldl repStep none

/-- All positive effective timestamps of a url's events, in event order. -/
def specTsFor (u : String) (data : List PlayRec) : List Int :=
  (data.filter (fun r => r.url == u && decide (0 < effTs r))).map effTs

/-- Junk record; never reached when the url list comes from the data. -/
def emptyRec : PlayRec := ⟨"", none, none, none, none, []⟩

/-- The migration algorithm as the spec words it: one output record per
distinct non-empty url (first-appearance order), each the finalized
representative of that url, the whole list stably sorted descending by the
derived timestamp. -/
def specMigrateRecords (data : List PlayRec) : List PlayRec :=
  sortByTsDesc ((specNonEmptyUrls data).map (fun u =>
    finalizeRec ((specRepFor u data).getD emptyRec) (sortedDedup (specTsFor u data))))

/-- Claim C1: on the input event list `[{url:"a",ts:100},{url:"a",ts:200},
{url:"b",ts:150}]` the migrator rewrites the main file to exactly two
records — url "a" with `play_count = 2`, `timestamps = "100,200"`, `ts = 200`
(and alias `timestamp = 200`), url "b" with `play_count = 1`, `ts = 150` —
ordered `[a, b]`, descending by `ts`; the backup gets the original list. -/
theorem c1_migration_scenario :
    runMigration ⟨[mkEvent "a" 100, mkEvent "a" 200, mkEvent "b" 150], none⟩ =
      ⟨[⟨"a", some 200, some 200, some 2, some "100,200", []⟩,
        ⟨"b", some 150, some 150, some 1, some "150", []⟩],
       some [mkEvent "a" 100, mkEvent "a" 200, mkEvent "b" 150]⟩ := by
  decide

/-- Claim C2, counterexample: the output record does not in general keep the
field set of the event with the highest timestamp.  Here the first event has
effective timestamp 500 (via the legacy `timestamp` field) and the second
only 100, yet the output carries the second event's fields, because the code
compares against the stored record's raw `ts` field (absent, hence 0). -/
theorem c2_rep_not_highest_ts :
    (migrateRecords
        [⟨"a", none, some 500, none, none, [("title", "A")]⟩,
         ⟨"a", some 100, none, none, none, [("title", "B")]⟩]).map (fun r => r.rest) =
      [[("title", "B")]] ∧
    effTs ⟨"a", none, some 500, none, none, [("title", "A")]⟩ >
      effTs ⟨"a", some 100, none, none, none, [("title", "B")]⟩ := by
  decide

/-- Claim C3, counterexample: a second migrator run on the output of a first
run does not reproduce it — a track played twice has `play_count = 2` after
the first run but `play_count = 1` (and a collapsed `timestamps` string)
after the second, since the per-play history is gone from the main file. -/
theorem c3_second_run_differs :
    (runMigration (runMigration ⟨[mkEvent "a" 100, mkEvent "a" 200], none⟩)).main ≠
      (runMigration ⟨[mkEvent "a" 100, mkEvent "a" 200], none⟩).main ∧
    (runMigration ⟨[mkEvent "a" 100, mkEvent "a" 200], none⟩).main.map (fun r => r.play_count) =
      [some 2] ∧
    (runMigration (runMigration ⟨[mkEvent "a" 100, mkEvent "a" 200], none⟩)).main.map
        (fun r => r.play_count) = [some 1] := by
  decide

/-! ### Association-list lemmas -/

theorem updAssoc_nil {β : Type} (k : String) (v : β) : updAssoc k v [] = [(k, v)] := rfl

theorem updAssoc_cons {β : Type} (k a : String) (v b : β) (rest : List (String × β)) :
    updAssoc k v ((a, b) :: rest) =
      if a = k then (k, v) :: rest else (a, b) :: updAssoc k v rest := rfl

theorem appendAssoc_nil (k : String) (x : Int) : appendAssoc k x [] = [(k, [x])] := rfl

theorem appendAssoc_cons (k a : String) (x : Int) (b : List Int)
    (rest : List (String × List Int)) :
    appendAssoc k x ((a, b) :: rest) =
      if a = k then (k, b ++ [x]) :: rest else (a, b) :: appendAssoc k x rest := rfl

theorem lookup_cons {β : Type} (a k : String) (v : β) (l : List (String × β)) :
    List.lookup k ((a, v) :: l) = if k = a then some v else List.lookup k l := by
  by_cases h : k = a
  · subst h
    simp [List.lookup]
  · cases hb : k == a with
    | true => exact absurd (eq_of_beq hb) h
    | false => simp [List.lookup, hb, h]

theorem lookup_updAssoc {β : Type} (k k' : String) (v : β) (l : List (String × β)) :
    (updAssoc k v l).lookup k' = if k' = k then some v else l.lookup k' := by
  induction l with
  | nil => rw [updAssoc_nil, lookup_cons]
  | cons kv rest ih =>
    obtain ⟨a, b⟩ := kv
    rw [updAssoc_cons]
    by_cases h1 : a = k <;> by_cases h2 : k' = a <;> by_cases h3 : k' = k <;>
      simp_all [lookup_cons]

theorem keys_updAssoc_of_mem {β : Type} (k : String) (v : β) (l : List (String × β))
    (h : k ∈ l.map Prod.fst) : (updAssoc k v l).map Prod.fst = l.map Prod.fst := by
  induction l with
  | nil => simp at h
  | cons kv rest ih =>
    obtain ⟨a, b⟩ := kv
    rw [updAssoc_cons]
    by_cases h1 : a = k
    · rw [if_pos h1, List.map_cons, List.map_cons, h1]
    · rw [List.map_cons] at h
      rcases List.mem_cons.mp h with hh | hh
      · exact absurd hh.symm h1
      · rw [if_neg h1, List.map_cons, List.map_cons, ih hh]

theorem updAssoc_of_not_mem {β : Type} (k : String) (v : β) (l : List (String × β))
    (h : k ∉ l.map Prod.fst) : updAssoc k v l = l ++ [(k, v)] := by
  induction l with
  | nil => rfl
  | cons kv rest ih =>
    obtain ⟨a, b⟩ := kv
    rw [List.map_cons] at h
    have h1 : ¬ a = k := fun hh => h (List.mem_cons.mpr (Or.inl hh.symm))
    have h2 : k ∉ rest.map Prod.fst := fun hh => h (List.mem_cons.mpr (Or.inr hh))
    rw [updAssoc_cons, if_neg h1, ih h2]
    rfl

theorem lookup_eq_none_of_not_mem {β : Type} (k : String) (l : List (String × β))
    (h : k ∉ l.map Prod.fst) : l.lookup k = none := by
  induction l with
  | nil => rfl
  | cons kv rest ih =>
    obtain ⟨a, b⟩ := kv
    rw [List.map_cons] at h
    have h1 : ¬ k = a := fun hh => h (List.mem_cons.mpr (Or.inl hh))
    have h2 : k ∉ rest.map Prod.fst := fun hh => h (List.mem_cons.mpr (Or.inr hh))
    rw [lookup_cons, if_neg h1, ih h2]

theorem lookup_isSome_of_mem {β : Type} (k : String) (l : List (String × β))
    (h : k ∈ l.map Prod.fst) : ∃ v, l.lookup k = some v := by
  induction l with
  | nil => simp at h
  | cons kv rest ih =>
    obtain ⟨a, b⟩ := kv
    by_cases h1 : k = a
    · exact ⟨b, by rw [lookup_cons, if_pos h1]⟩
    · rw [List.map_cons] at h
      rcases List.mem_cons.mp h with hh | hh
      · exact absurd hh h1
      · rcases ih hh with ⟨v, hv⟩
        exact ⟨v, by rw [lookup_cons, if_neg h1, hv]⟩

theorem lookup_appendAssoc (k k' : String) (x : Int) (l : List (String × List Int)) :
    (appendAssoc k x l).lookup k' =
      if k' = k then some (((l.lookup k).getD []) ++ [x]) else l.lookup k' := by
  induction l with
  | nil =>
    rw [appendAssoc_nil, lookup_cons]
    by_cases h : k' = k <;> simp [h, List.lookup]
  | cons kv rest ih =>
    obtain ⟨a, b⟩ := kv
    rw [appendAssoc_cons]
    by_cases h1 : a = k <;> by_cases h2 : k' = a <;> by_cases h3 : k' = k <;>
      simp_all [lookup_cons]

theorem keys_appendAssoc (k : String) (x : Int) (l : List (String × List Int)) :
    (appendAssoc k x l).map Prod.fst =
      if k ∈ l.map Prod.fst then l.map Prod.fst else l.map Prod.fst ++ [k] := by
  induction l with
  | nil => simp [appendAssoc_nil]
  | cons kv rest ih =>
    obtain ⟨a, b⟩ := kv
    rw [appendAssoc_cons]
    by_cases h1 : a = k
    · rw [if_pos h1, List.map_cons, List.map_cons, if_pos]
      · rw [h1]
      · rw [List.mem_cons]
        exact Or.inl h1.symm
    · rw [if_neg h1, List.map_cons, List.map_cons, ih]
      by_cases h2 : k ∈ rest.map Prod.fst
      · rw [if_pos h2, if_pos]
        rw [List.mem_cons]
        exact Or.inr h2
      · rw [if_neg h2, if_neg]
        · rfl
        · rw [List.mem_cons]
          rintro (hh | hh)
          · exact h1 hh.symm
          · exact h2 hh

theorem lookup_map_pair {β : Type} (f : String → β) (urls : List String) (u : String)
    (hnd : urls.Nodup) :
    (urls.map (fun x => (x, f x))).lookup u = if u ∈ urls then some (f u) else none := by
  induction urls with
  | nil => simp [List.lookup]
  | cons a rest ih =>
    rw [List.nodup_cons] at hnd
    rw [List.map_cons, lookup_cons, ih hnd.2]
    by_cases h : u = a
    · subst h
      simp [hnd.1]
    · simp [h]

theorem assoc_ext {β : Type} (l1 l2 : List (String × β))
    (hk : l1.map Prod.fst = l2.map Prod.fst) (hnd : (l1.map Prod.fst).Nodup)
    (hl : ∀ u, l1.lookup u = l2.lookup u) : l1 = l2 := by
  induction l1 generalizing l2 with
  | nil =>
    cases l2 with
    | nil => rfl
    | cons kv rest => simp at hk
  | cons kv rest ih =>
    obtain ⟨a, b⟩ := kv
    cases l2 with
    | nil => simp at hk
    | cons kv2 rest2 =>
      obtain ⟨a2, b2⟩ := kv2
      rw [List.map_cons, List.map_cons] at hk
      injection hk with hk1 hk2
      rw [List.map_cons, List.nodup_cons] at hnd
      have hk1' : a = a2 := hk1
      have hb : b = b2 := by
        have h := hl a
        rw [lookup_cons, lookup_cons, if_pos rfl, if_pos hk1'] at h
        exact Option.some.inj h
      have hrest : rest = rest2 := by
        apply ih
        · exact hk2
        · exact hnd.2
        · intro u
          by_cases hu : u = a
          · subst hu
            have hm2 : u ∉ rest2.map Prod.fst := by
              rw [← hk2]
              exact hnd.1
            rw [lookup_eq_none_of_not_mem u rest hnd.1,
              lookup_eq_none_of_not_mem u rest2 hm2]
          · have h := hl u
            rw [lookup_cons, lookup_cons, if_neg hu, if_neg (hk1' ▸ hu)] at h
            exact h
      rw [hk1', hb, hrest]

/-! ### Characterizing the aggregation folds -/

theorem lookup_aggStep_self (agg0 : List (String × PlayRec)) (e : PlayRec)
    (he : e.url ≠ "") : (aggStep agg0 e).lookup e.url = repStep (agg0.lookup e.url) e := by
  unfold aggStep repStep
  rw [if_neg he]
  cases h : agg0.lookup e.url with
  | none => rw [lookup_updAssoc, if_pos rfl]
  | some rep =>
    show (if rawTs rep < effTs e then updAssoc e.url e agg0 else agg0).lookup e.url =
      if rawTs rep < effTs e then some e else some rep
    by_cases hlt : rawTs rep < effTs e
    · rw [if_pos hlt, if_pos hlt, lookup_updAssoc, if_pos rfl]
    · rw [if_neg hlt, if_neg hlt, h]

theorem lookup_aggStep_other (agg0 : List (String × PlayRec)) (e : PlayRec) (u : String)
    (hne : e.url ≠ u) : (aggStep agg0 e).lookup u = agg0.lookup u := by
  unfold aggStep
  by_cases he : e.url = ""
  · rw [if_pos he]
  · rw [if_neg he]
    cases h : agg0.lookup e.url with
    | none => rw [lookup_updAssoc, if_neg (fun hh => hne hh.symm)]
    | some rep =>
      show (if rawTs rep < effTs e then updAssoc e.url e agg0 else agg0).lookup u =
        agg0.lookup u
      by_cases hlt : rawTs rep < effTs e
      · rw [if_pos hlt, lookup_updAssoc, if_neg (fun hh => hne hh.symm)]
      · rw [if_neg hlt]

theorem aggFold_lookup (data : List PlayRec) (u : String) (hu : u ≠ "") :
    ∀ agg0 : List (String × PlayRec),
      (data.foldl aggStep agg0).lookup u =
        (data.filter (fun r => r.url == u)).foldl repStep (agg0.lookup u) := by
  induction data with
  | nil => intro agg0; rfl
  | cons e rest ih =>
    intro agg0
    rw [List.foldl_cons]
    by_cases hne : e.url = u
    · have hkeep : ((e :: rest).filter (fun r => r.url == u)) =
          e :: rest.filter (fun r => r.url == u) := by
        simp [List.filter_cons, hne]
      rw [ih (aggStep agg0 e), hkeep, List.foldl_cons]
      have he : e.url ≠ "" := by rw [hne]; exact hu
      have hstep := lookup_aggStep_self agg0 e he
      rw [hne] at hstep
      rw [hstep]
    · have hdrop : ((e :: rest).filter (fun r => r.url == u)) =
          rest.filter (fun r => r.url == u) := by
        simp [List.filter_cons, hne]
      rw [ih (aggStep agg0 e), hdrop, lookup_aggStep_other agg0 e u hne]

/-- The evolution of the key list of `aggregated` during the fold. -/
def kStep (ks : List String) (e : PlayRec) : List String :=
  if e.url = "" ∨ e.url ∈ ks then ks else ks ++ [e.url]

theorem aggFold_keys (data : List PlayRec) :
    ∀ agg0 : List (String × PlayRec),
      (data.foldl aggStep agg0).map Prod.fst = data.foldl kStep (agg0.map Prod.fst) := by
  induction data with
  | nil => intro agg0; rfl
  | cons e rest ih =>
    intro agg0
    rw [List.foldl_cons, List.foldl_cons, ih]
    congr 1
    unfold aggStep kStep
    by_cases he : e.url = ""
    · rw [if_pos he, if_pos (Or.inl he)]
    · rw [if_neg he]
      by_cases hm : e.url ∈ agg0.map Prod.fst
      · rcases lookup_isSome_of_mem _ _ hm with ⟨v, hv⟩
        rw [hv]
        show (if rawTs v < effTs e then updAssoc e.url e agg0 else agg0).map Prod.fst =
          if e.url = "" ∨ e.url ∈ agg0.map Prod.fst then agg0.map Prod.fst
          else agg0.map Prod.fst ++ [e.url]
        by_cases hlt : rawTs v < effTs e
        · rw [if_pos hlt, keys_updAssoc_of_mem _ _ _ hm, if_pos (Or.inr hm)]
        · rw [if_neg hlt, if_pos (Or.inr hm)]
      · have hcond : ¬ (e.url = "" ∨ e.url ∈ agg0.map Prod.fst) := by
          rintro (hh | hh)
          · exact he hh
          · exact hm hh
        rw [lookup_eq_none_of_not_mem _ _ hm, updAssoc_of_not_mem _ _ _ hm, if_neg hcond,
          List.map_append]
        rfl

theorem keysFold_eq (data : List PlayRec) :
    ∀ ks : List String,
      data.foldl kStep ks =
        ((data.filter (fun r => r.url != "")).map (fun r => r.url)).foldl dStep ks := by
  induction data with
  | nil => intro ks; rfl
  | cons e rest ih =>
    intro ks
    rw [List.foldl_cons]
    by_cases he : e.url = ""
    · have hdrop : ((e :: rest).filter (fun r => r.url != "")) =
          rest.filter (fun r => r.url != "") := by
        simp [List.filter_cons, he]
      rw [hdrop, ← ih ks]
      congr 1
      unfold kStep
      rw [if_pos (Or.inl he)]
    · have hkeep : ((e :: rest).filter (fun r => r.url != "")) =
          e :: rest.filter (fun r => r.url != "") := by
        simp [List.filter_cons, he]
      rw [hkeep, List.map_cons, List.foldl_cons, ih]
      congr 1
      unfold kStep dStep
      by_cases hm : e.url ∈ ks
      · rw [if_pos (Or.inr hm), if_pos hm]
      · have hcond : ¬ (e.url = "" ∨ e.url ∈ ks) := by
          rintro (hh | hh)
          · exact he hh
          · exact hm hh
        rw [if_neg hcond, if_neg hm]

theorem dFold_nodup : ∀ (l acc : List String), acc.Nodup → (l.foldl dStep acc).Nodup := by
  intro l
  induction l with
  | nil => intro acc h; exact h
  | cons a rest ih =>
    intro acc h
    rw [List.foldl_cons]
    apply ih
    unfold dStep
    by_cases hm : a ∈ acc
    · rw [if_pos hm]; exact h
    · rw [if_neg hm]
      rw [List.nodup_append]
      exact ⟨h, List.nodup_singleton a, by simpa using hm⟩

theorem dFold_mem : ∀ (l acc : List String) (u : String),
    u ∈ l.foldl dStep acc ↔ u ∈ acc ∨ u ∈ l := by
  intro l
  induction l with
  | nil => intro acc u; simp
  | cons a rest ih =>
    intro acc u
    rw [List.foldl_cons, ih]
    unfold dStep
    by_cases hm : a ∈ acc
    · rw [if_pos hm]
      constructor
      · rintro (h | h)
        · exact Or.inl h
        · exact Or.inr (List.mem_cons_of_mem _ h)
      · rintro (h | h)
        · exact Or.inl h
        · rcases List.mem_cons.mp h with h | h
          · exact Or.inl (h ▸ hm)
          · exact Or.inr h
    · rw [if_neg hm]
      constructor
      · rintro (h | h)
        · rcases List.mem_append.mp h with h | h
          · exact Or.inl h
          · exact Or.inr (List.mem_cons.mpr (Or.inl (by simpa using h)))
        · exact Or.inr (List.mem_cons_of_mem _ h)
      · rintro (h | h)
        · exact Or.inl (List.mem_append.mpr (Or.inl h))
        · rcases List.mem_cons.mp h with h | h
          · exact Or.inl (List.mem_append.mpr (Or.inr (by simp [h])))
          · exact Or.inr h

theorem keys_aggFold (data : List PlayRec) :
    (data.foldl aggStep []).map Prod.fst = specNonEmptyUrls data := by
  have h0 : (([] : List (String × PlayRec)).map Prod.fst) = ([] : List String) := rfl
  rw [aggFold_keys data [], h0, keysFold_eq data]
  rfl

theorem specNonEmptyUrls_nodup (data : List PlayRec) : (specNonEmptyUrls data).Nodup := by
  unfold specNonEmptyUrls dedupFirst
  exact dFold_nodup _ [] List.nodup_nil

theorem specNonEmptyUrls_ne (data : List PlayRec) :
    ∀ u ∈ specNonEmptyUrls data, u ≠ "" := by
  intro u hm
  unfold specNonEmptyUrls dedupFirst at hm
  rcases (dFold_mem _ [] u).mp hm with h | h
  · simp at h
  · rcases List.mem_map.mp h with ⟨r, hr, hru⟩
    have hp := (List.mem_filter.mp hr).2
    rw [← hru]
    simpa using hp

theorem specNonEmptyUrls_mem_of (data : List PlayRec) (r : PlayRec) (hr : r ∈ data)
    (hne : r.url ≠ "") : r.url ∈ specNonEmptyUrls data := by
  unfold specNonEmptyUrls dedupFirst
  apply (dFold_mem _ [] r.url).mpr
  right
  exact List.mem_map.mpr ⟨r, List.mem_filter.mpr ⟨hr, by simpa using hne⟩, rfl⟩

theorem tsFold_lookup (u : String) (hu : u ≠ "") (data : List PlayRec) :
    ∀ acc : List (String × List Int),
      (((data.foldl tsStep acc).lookup u).getD []) =
        ((acc.lookup u).getD []) ++ specTsFor u data := by
  induction data with
  | nil =>
    intro acc
    simp [specTsFor]
  | cons e rest ih =>
    intro acc
    rw [List.foldl_cons]
    unfold specTsFor
    by_cases hne : e.url = u
    · by_cases hpos : 0 < effTs e
      · have hkeep : ((e :: rest).filter (fun r => r.url == u && decide (0 < effTs r))) =
            e :: rest.filter (fun r => r.url == u && decide (0 < effTs r)) := by
          simp [List.filter_cons, hne, hpos]
        rw [hkeep, List.map_cons, ih]
        have hstep : tsStep acc e = appendAssoc u (effTs e) acc := by
          unfold tsStep
          rw [if_neg (by rw [hne]; exact hu), if_pos hpos, hne]
        rw [hstep]
        have hl : ((appendAssoc u (effTs e) acc).lookup u).getD [] =
            ((acc.lookup u).getD []) ++ [effTs e] := by
          rw [lookup_appendAssoc, if_pos rfl]
          rfl
        rw [hl, specTsFor, List.append_assoc]
        rfl
      · have hdrop : ((e :: rest).filter (fun r => r.url == u && decide (0 < effTs r))) =
            rest.filter (fun r => r.url == u && decide (0 < effTs r)) := by
          simp [List.filter_cons, hpos]
        rw [hdrop, ih]
        have hstep : tsStep acc e = acc := by
          unfold tsStep
          rw [if_neg (by rw [hne]; exact hu), if_neg hpos]
        rw [hstep, specTsFor]
    · have hdrop : ((e :: rest).filter (fun r => r.url == u && decide (0 < effTs r))) =
          rest.filter (fun r => r.url == u && decide (0 < effTs r)) := by
        simp [List.filter_cons, hne]
      rw [hdrop, ih]
      have hstep : ((tsStep acc e).lookup u).getD [] = ((acc.lookup u).getD []) := by
        unfold tsStep
        by_cases he : e.url = ""
        · rw [if_pos he]
        · rw [if_neg he]
          by_cases hpos : 0 < effTs e
          · rw [if_pos hpos, lookup_appendAssoc, if_neg (fun hh => hne hh.symm)]
          · rw [if_neg hpos]
      rw [hstep, specTsFor]

theorem repFold_some : ∀ (l : List PlayRec) (r0 : PlayRec),
    ∃ r, l.foldl repStep (some r0) = some r ∧ (r = r0 ∨ r ∈ l) := by
  intro l
  induction l with
  | nil => exact fun r0 => ⟨r0, rfl, Or.inl rfl⟩
  | cons e rest ih =>
    intro r0
    rw [List.foldl_cons]
    by_cases hlt : rawTs r0 < effTs e
    · have hstep : repStep (some r0) e = some e := by
        show (if rawTs r0 < effTs e then some e else some r0) = some e
        rw [if_pos hlt]
      rw [hstep]
      rcases ih e with ⟨r, hr, hm⟩
      refine ⟨r, hr, ?_⟩
      rcases hm with h | h
      · exact Or.inr (List.mem_cons.mpr (Or.inl h))
      · exact Or.inr (List.mem_cons_of_mem _ h)
    · have hstep : repStep (some r0) e = some r0 := by
        show (if rawTs r0 < effTs e then some e else some r0) = some r0
        rw [if_neg hlt]
      rw [hstep]
      rcases ih r0 with ⟨r, hr, hm⟩
      refine ⟨r, hr, ?_⟩
      rcases hm with h | h
      · exact Or.inl h
      · exact Or.inr (List.mem_cons_of_mem _ h)

theorem filter_url_all (u : String) (data : List PlayRec) :
    ∀ r ∈ data.filter (fun r2 => r2.url == u), r.url = u := by
  intro r hr
  exact eq_of_beq (List.mem_filter.mp hr).2

theorem specRepFor_of_mem (u : String) (data : List PlayRec)
    (hm : u ∈ specNonEmptyUrls data) :
    ∃ r, specRepFor u data = some r ∧ r.url = u := by
  have hne : data.filter (fun r2 => r2.url == u) ≠ [] := by
    unfold specNonEmptyUrls dedupFirst at hm
    rcases (dFold_mem _ [] u).mp hm with h | h
    · simp at h
    · rcases List.mem_map.mp h with ⟨r, hrf, hru⟩
      have hr2 := List.mem_filter.mp hrf
      intro hEmpty
      have hmem : r ∈ data.filter (fun r2 => r2.url == u) :=
        List.mem_filter.mpr ⟨hr2.1, by simp [hru]⟩
      rw [hEmpty] at hmem
      simp at hmem
  unfold specRepFor
  cases hfe : data.filter (fun r2 => r2.url == u) with
  | nil => exact absurd hfe hne
  | cons y l' =>
    rw [List.foldl_cons]
    have hy : repStep none y = some y := rfl
    rw [hy]
    rcases repFold_some l' y with ⟨r, hr, hmem⟩
    refine ⟨r, hr, ?_⟩
    have hrm : r ∈ data.filter (fun r2 => r2.url == u) := by
      rw [hfe]
      rcases hmem with h | h
      · rw [h]
        exact List.mem_cons_self _ _
      · exact List.mem_cons_of_mem _ h
    exact filter_url_all u data r hrm

theorem specRepFor_eq_none (u : String) (data : List PlayRec) (hu : u ≠ "")
    (hm : u ∉ specNonEmptyUrls data) : specRepFor u data = none := by
  have hnil : data.filter (fun r2 => r2.url == u) = [] := by
    rw [List.filter_eq_nil_iff]
    intro r hr hbr
    have hru : r.url = u := eq_of_beq hbr
    apply hm
    rw [← hru]
    exact specNonEmptyUrls_mem_of data r hr (by rw [hru]; exact hu)
  unfold specRepFor
  rw [hnil]
  rfl

theorem aggFold_eq (data : List PlayRec) :
    data.foldl aggStep [] =
      (specNonEmptyUrls data).map (fun u => (u, (specRepFor u data).getD emptyRec)) := by
  apply assoc_ext
  · rw [keys_aggFold, List.map_map]
    have hid : (Prod.fst ∘ fun u => (u, (specRepFor u data).getD emptyRec)) = id := rfl
    rw [hid, List.map_id]
  · rw [keys_aggFold]
    exact specNonEmptyUrls_nodup data
  · intro u
    by_cases hu : u = ""
    · subst hu
      have h1 : ("" : String) ∉ (data.foldl aggStep []).map Prod.fst := by
        rw [keys_aggFold]
        intro hmem
        exact specNonEmptyUrls_ne data "" hmem rfl
      have h2 : ("" : String) ∉
          ((specNonEmptyUrls data).map
            (fun u => (u, (specRepFor u data).getD emptyRec))).map Prod.fst := by
        rw [List.map_map]
        have hid : (Prod.fst ∘ fun u => (u, (specRepFor u data).getD emptyRec)) = id := rfl
        rw [hid, List.map_id]
        intro hmem
        exact specNonEmptyUrls_ne data "" hmem rfl
      rw [lookup_eq_none_of_not_mem _ _ h1, lookup_eq_none_of_not_mem _ _ h2]
    · have hL : (data.foldl aggStep []).lookup u = specRepFor u data := by
        rw [aggFold_lookup data u hu []]
        rfl
      rw [hL, lookup_map_pair _ _ _ (specNonEmptyUrls_nodup data)]
      by_cases hm : u ∈ specNonEmptyUrls data
      · rcases specRepFor_of_mem u data hm with ⟨r, hr, _⟩
        rw [if_pos hm, hr]
        rfl
      · rw [if_neg hm, specRepFor_eq_none u data hu hm]

/-- The Python single-pass aggregation equals the per-url specification
pipeline, on every input. -/
theorem migrate_eq_spec_aux (data : List PlayRec) :
    migrateRecords data = specMigrateRecords data := by
  have hm : migrateRecords data =
      sortByTsDesc ((data.foldl aggStep []).map (fun kv =>
        finalizeRec kv.2 (sortedDedup (((data.foldl tsStep []).lookup kv.1).getD [])))) := rfl
  rw [hm]
  unfold specMigrateRecords
  congr 1
  rw [aggFold_eq data, List.map_map]
  apply List.map_congr_left
  intro u hu
  have hu' : u ≠ "" := specNonEmptyUrls_ne data u hu
  have hts : ((data.foldl tsStep []).lookup u).getD [] = specTsFor u data := by
    have h := tsFold_lookup u hu' data []
    simpa using h
  show finalizeRec ((specRepFor u data).getD emptyRec)
      (sortedDedup (((data.foldl tsStep []).lookup u).getD [])) =
    finalizeRec ((specRepFor u data).getD emptyRec) (sortedDedup (specTsFor u data))
  rw [hts]

/-- Claim C2 (amended): for every input list the migrator's output is the
per-url specification pipeline — one record per distinct non-empty url, the
representative chosen by the left-to-right scan that replaces the current
representative exactly when an event's effective timestamp strictly exceeds
the stored record's raw `ts` field (not necessarily the event with the
highest timestamp), `ts`/`timestamp` overwritten with the max of the
deduplicated positive timestamps (0 if none), `play_count` their count,
`timestamps` the comma-joined ascending list, and the result stably sorted
descending by the derived `ts`. -/
theorem c2_migrate_matches_spec_pipeline (data : List PlayRec) :
    migrateRecords data = specMigrateRecords data := migrate_eq_spec_aux data

/-! ### Sorting lemmas and the second-run behaviour of the migrator -/

theorem insertByTsDesc_cons (r y : PlayRec) (l : List PlayRec) :
    insertByTsDesc r (y :: l) =
      if tsKey y ≤ tsKey r then r :: y :: l else y :: insertByTsDesc r l := rfl

theorem mem_insertByTsDesc (r x : PlayRec) (l : List PlayRec) :
    x ∈ insertByTsDesc r l → x = r ∨ x ∈ l := by
  induction l with
  | nil =>
    intro h
    rcases List.mem_cons.mp h with h | h
    · exact Or.inl h
    · simp at h
  | cons y ys ih =>
    rw [insertByTsDesc_cons]
    by_cases hc : tsKey y ≤ tsKey r
    · rw [if_pos hc]
      intro h
      rcases List.mem_cons.mp h with h | h
      · exact Or.inl h
      · exact Or.inr h
    · rw [if_neg hc]
      intro h
      rcases List.mem_cons.mp h with h | h
      · exact Or.inr (List.mem_cons.mpr (Or.inl h))
      · rcases ih h with h | h
        · exact Or.inl h
        · exact Or.inr (List.mem_cons_of_mem _ h)

theorem insertByTsDesc_perm (r : PlayRec) (l : List PlayRec) :
    List.Perm (insertByTsDesc r l) (r :: l) := by
  induction l with
  | nil => exact List.Perm.refl _
  | cons y ys ih =>
    rw [insertByTsDesc_cons]
    by_cases hc : tsKey y ≤ tsKey r
    · rw [if_pos hc]
    · rw [if_neg hc]
      exact List.Perm.trans (List.Perm.cons y ih) (List.Perm.swap r y ys)

theorem sortByTsDesc_perm (l : List PlayRec) : List.Perm (sortByTsDesc l) l := by
  induction l with
  | nil => exact List.Perm.refl _
  | cons x xs ih =>
    show List.Perm (insertByTsDesc x (sortByTsDesc xs)) (x :: xs)
    exact List.Perm.trans (insertByTsDesc_perm x (sortByTsDesc xs)) (List.Perm.cons x ih)

theorem pairwise_insertByTsDesc (r : PlayRec) (l : List PlayRec)
    (h : List.Pairwise (fun a b => tsKey b ≤ tsKey a) l) :
    List.Pairwise (fun a b => tsKey b ≤ tsKey a) (insertByTsDesc r l) := by
  induction l with
  | nil => simp [insertByTsDesc]
  | cons y ys ih =>
    rw [List.pairwise_cons] at h
    rw [insertByTsDesc_cons]
    by_cases hc : tsKey y ≤ tsKey r
    · rw [if_pos hc, List.pairwise_cons]
      constructor
      · intro b hb
        rcases List.mem_cons.mp hb with hb | hb
        · rw [hb]
          exact hc
        · exact le_trans (h.1 b hb) hc
      · rw [List.pairwise_cons]
        exact h
    · rw [if_neg hc, List.pairwise_cons]
      constructor
      · intro b hb
        rcases mem_insertByTsDesc r b ys hb with hb | hb
        · rw [hb]
          exact le_of_not_le hc
        · exact h.1 b hb
      · exact ih h.2

theorem sortByTsDesc_pairwise (l : List PlayRec) :
    List.Pairwise (fun a b => tsKey b ≤ tsKey a) (sortByTsDesc l) := by
  induction l with
  | nil => simp [sortByTsDesc]
  | cons x xs ih =>
    show List.Pairwise _ (insertByTsDesc x (sortByTsDesc xs))
    exact pairwise_insertByTsDesc x _ ih

theorem sortByTsDesc_eq_self (l : List PlayRec)
    (h : List.Pairwise (fun a b => tsKey b ≤ tsKey a) l) : sortByTsDesc l = l := by
  induction l with
  | nil => rfl
  | cons x xs ih =>
    rw [List.pairwise_cons] at h
    show insertByTsDesc x (sortByTsDesc xs) = x :: xs
    rw [ih h.2]
    cases xs with
    | nil => rfl
    | cons y ys =>
      rw [insertByTsDesc_cons, if_pos (h.1 y (List.mem_cons_self y ys))]

/-- What a second migrator run does to each record of a first run's output:
`play_count` collapses to 1 (0 for a never-positive timestamp) and the
`timestamps` string to just the record's own `ts`. -/
def collapseRec (r : PlayRec) : PlayRec :=
  { r with
    play_count := some (if 0 < tsKey r then 1 else 0),
    timestamps := some (if 0 < tsKey r then toString (tsKey r) else "") }

theorem filter_url_eq_of_nodup (L : List PlayRec) (r : PlayRec)
    (hnd : (L.map (fun x => x.url)).Nodup) (hr : r ∈ L) :
    L.filter (fun e => e.url == r.url) = [r] := by
  induction L with
  | nil => simp at hr
  | cons y ys ih =>
    rw [List.map_cons, List.nodup_cons] at hnd
    rcases List.mem_cons.mp hr with hh | hh
    · subst hh
      have hkeep : ((r :: ys).filter (fun e => e.url == r.url)) =
          r :: ys.filter (fun e => e.url == r.url) := by
        simp [List.filter_cons]
      rw [hkeep]
      have hnil : ys.filter (fun e => e.url == r.url) = [] := by
        rw [List.filter_eq_nil_iff]
        intro e he hbe
        exact hnd.1 (eq_of_beq hbe ▸ List.mem_map.mpr ⟨e, he, rfl⟩)
      rw [hnil]
    · have hyne : ¬ y.url = r.url := by
        intro hh2
        exact hnd.1 (hh2 ▸ List.mem_map.mpr ⟨r, hh, rfl⟩)
      have hdrop : ((y :: ys).filter (fun e => e.url == r.url)) =
          ys.filter (fun e => e.url == r.url) := by
        simp [List.filter_cons, hyne]
      rw [hdrop]
      exact ih hnd.2 hh

theorem filter_url_and_eq_of_nodup (L : List PlayRec) (r : PlayRec) (p : PlayRec → Bool)
    (hnd : (L.map (fun x => x.url)).Nodup) (hr : r ∈ L) :
    L.filter (fun e => e.url == r.url && p e) = if p r then [r] else [] := by
  induction L with
  | nil => simp at hr
  | cons y ys ih =>
    rw [List.map_cons, List.nodup_cons] at hnd
    rcases List.mem_cons.mp hr with hh | hh
    · subst hh
      have hnil : ys.filter (fun e => e.url == r.url && p e) = [] := by
        rw [List.filter_eq_nil_iff]
        intro e he hbe
        have hbu : (e.url == r.url) = true := ((Bool.and_eq_true _ _).mp hbe).1
        exact hnd.1 (eq_of_beq hbu ▸ List.mem_map.mpr ⟨e, he, rfl⟩)
      by_cases hp : p r
      · have hkeep : ((r :: ys).filter (fun e => e.url == r.url && p e)) =
            r :: ys.filter (fun e => e.url == r.url && p e) := by
          simp [List.filter_cons, hp]
        rw [hkeep, hnil, if_pos hp]
      · have hdrop : ((r :: ys).filter (fun e => e.url == r.url && p e)) =
            ys.filter (fun e => e.url == r.url && p e) := by
          simp [List.filter_cons, hp]
        rw [hdrop, hnil, if_neg hp]
    · have hyne : ¬ y.url = r.url := by
        intro hh2
        exact hnd.1 (hh2 ▸ List.mem_map.mpr ⟨r, hh, rfl⟩)
      have hdrop : ((y :: ys).filter (fun e => e.url == r.url && p e)) =
          ys.filter (fun e => e.url == r.url && p e) := by
        simp [List.filter_cons, hyne]
      rw [hdrop]
      exact ih hnd.2 hh

theorem dedupFirst_eq_self (l : List String) (h : l.Nodup) : dedupFirst l = l := by
  have aux : ∀ (l2 acc : List String), l2.Nodup → (∀ u ∈ l2, u ∉ acc) →
      l2.foldl dStep acc = acc ++ l2 := by
    intro l2
    induction l2 with
    | nil => intro acc _ _; simp
    | cons a rest ih =>
      intro acc hnd hdisj
      rw [List.nodup_cons] at hnd
      rw [List.foldl_cons]
      have hstep : dStep acc a = acc ++ [a] := by
        unfold dStep
        rw [if_neg (hdisj a (List.mem_cons_self a rest))]
      rw [hstep, ih (acc ++ [a]) hnd.2]
      · rw [List.append_assoc]
        rfl
      · intro u hu
        rw [List.mem_append]
        rintro (hh | hh)
        · exact hdisj u (List.mem_cons_of_mem _ hu) hh
        · rw [List.mem_singleton] at hh
          exact hnd.1 (hh ▸ hu)
  exact aux l [] h (by simp)

theorem specNonEmptyUrls_of_nodup (L : List PlayRec)
    (hne : ∀ r ∈ L, r.url ≠ "") (hnd : (L.map (fun x => x.url)).Nodup) :
    specNonEmptyUrls L = L.map (fun x => x.url) := by
  unfold specNonEmptyUrls
  have hfe : L.filter (fun r => r.url != "") = L := by
    rw [List.filter_eq_self]
    intro r hr
    simpa using hne r hr
  rw [hfe]
  exact dedupFirst_eq_self _ hnd

theorem mem_insertSortedDedup (x z : Int) (l : List Int)
    (h : z ∈ insertSortedDedup x l) : z = x ∨ z ∈ l := by
  induction l with
  | nil =>
    rcases List.mem_cons.mp h with h | h
    · exact Or.inl h
    · simp at h
  | cons y ys ih =>
    have h' : z ∈ (if x < y then x :: y :: ys else if x = y then y :: ys
        else y :: insertSortedDedup x ys) := h
    by_cases h1 : x < y
    · rw [if_pos h1] at h'
      rcases List.mem_cons.mp h' with h2 | h2
      · exact Or.inl h2
      · exact Or.inr h2
    · rw [if_neg h1] at h'
      by_cases h2 : x = y
      · rw [if_pos h2] at h'
        exact Or.inr h'
      · rw [if_neg h2] at h'
        rcases List.mem_cons.mp h' with h3 | h3
        · exact Or.inr (h3 ▸ List.mem_cons_self y ys)
        · rcases ih h3 with h4 | h4
          · exact Or.inl h4
          · exact Or.inr (List.mem_cons_of_mem _ h4)

theorem mem_sortedDedup (l : List Int) (z : Int) (h : z ∈ sortedDedup l) : z ∈ l := by
  have aux : ∀ (l2 acc : List Int), z ∈ l2.foldl (fun a x => insertSortedDedup x a) acc →
      z ∈ acc ∨ z ∈ l2 := by
    intro l2
    induction l2 with
    | nil => intro acc h2; exact Or.inl h2
    | cons x xs ih =>
      intro acc h2
      rw [List.foldl_cons] at h2
      rcases ih _ h2 with h3 | h3
      · rcases mem_insertSortedDedup x z acc h3 with h4 | h4
        · exact Or.inr (h4 ▸ List.mem_cons_self x xs)
        · exact Or.inl h4
      · exact Or.inr (List.mem_cons_of_mem _ h3)
  rcases aux l [] h with h2 | h2
  · simp at h2
  · exact h2

theorem getLast?_mem_int : ∀ (l : List Int) (t : Int), l.getLast? = some t → t ∈ l := by
  intro l
  induction l with
  | nil => intro t h; simp at h
  | cons x xs ih =>
    intro t h
    cases xs with
    | nil =>
      simp at h
      simp [h]
    | cons y ys =>
      rw [List.getLast?_cons_cons] at h
      exact List.mem_cons_of_mem _ (ih t h)

theorem specTsFor_pos (u : String) (data : List PlayRec) :
    ∀ x ∈ specTsFor u data, 0 < x := by
  intro x hx
  unfold specTsFor at hx
  rcases List.mem_map.mp hx with ⟨r, hr, hre⟩
  have hp := (List.mem_filter.mp hr).2
  have hpos : 0 < effTs r := of_decide_eq_true ((Bool.and_eq_true _ _).mp hp).2
  rw [← hre]
  exact hpos

theorem migrateRecords_props (data : List PlayRec) :
    (∀ r ∈ migrateRecords data, r.url ≠ "") ∧
    ((migrateRecords data).map (fun x => x.url)).Nodup ∧
    (∀ r ∈ migrateRecords data,
      r.ts = some (tsKey r) ∧ r.timestamp = some (tsKey r) ∧ 0 ≤ tsKey r) ∧
    List.Pairwise (fun a b => tsKey b ≤ tsKey a) (migrateRecords data) := by
  have hrw := migrate_eq_spec_aux data
  rw [hrw]
  unfold specMigrateRecords
  set pre := (specNonEmptyUrls data).map (fun u =>
    finalizeRec ((specRepFor u data).getD emptyRec) (sortedDedup (specTsFor u data))) with hpre
  have hperm := sortByTsDesc_perm pre
  have hurl : ∀ r ∈ pre, r.url ≠ "" := by
    intro r hr
    rw [hpre] at hr
    rcases List.mem_map.mp hr with ⟨u, hu, he⟩
    rcases specRepFor_of_mem u data hu with ⟨rp, hrp, hrpu⟩
    rw [← he, hrp]
    show rp.url ≠ ""
    rw [hrpu]
    exact specNonEmptyUrls_ne data u hu
  have hmapurl : pre.map (fun x => x.url) = specNonEmptyUrls data := by
    rw [hpre, List.map_map]
    have hcg : ∀ u ∈ specNonEmptyUrls data,
        ((fun x => x.url) ∘ (fun u => finalizeRec ((specRepFor u data).getD emptyRec)
          (sortedDedup (specTsFor u data)))) u = id u := by
      intro u hu
      rcases specRepFor_of_mem u data hu with ⟨rp, hrp, hrpu⟩
      show (finalizeRec ((specRepFor u data).getD emptyRec)
        (sortedDedup (specTsFor u data))).url = u
      rw [hrp]
      show rp.url = u
      exact hrpu
    rw [List.map_congr_left hcg, List.map_id]
  have hfield : ∀ r ∈ pre,
      r.ts = some (tsKey r) ∧ r.timestamp = some (tsKey r) ∧ 0 ≤ tsKey r := by
    intro r hr
    rw [hpre] at hr
    rcases List.mem_map.mp hr with ⟨u, hu, he⟩
    rw [← he]
    refine ⟨rfl, rfl, ?_⟩
    show 0 ≤ lastOr0 (sortedDedup (specTsFor u data))
    unfold lastOr0
    cases hg : (sortedDedup (specTsFor u data)).getLast? with
    | none => exact le_refl 0
    | some t =>
      have ht : t ∈ specTsFor u data := mem_sortedDedup _ t (getLast?_mem_int _ t hg)
      exact le_of_lt (specTsFor_pos u data t ht)
  refine ⟨?_, ?_, ?_, ?_⟩
  · intro r hr
    exact hurl r (hperm.mem_iff.mp hr)
  · have hnd : (pre.map (fun x => x.url)).Nodup := by
      rw [hmapurl]
      exact specNonEmptyUrls_nodup data
    exact ((hperm.map (fun x => x.url)).nodup_iff).mpr hnd
  · intro r hr
    exact hfield r (hperm.mem_iff.mp hr)
  · exact sortByTsDesc_pairwise pre

theorem migrate_collapse (L : List PlayRec)
    (hne : ∀ r ∈ L, r.url ≠ "") (hnd : (L.map (fun x => x.url)).Nodup)
    (hts : ∀ r ∈ L, r.ts = some (tsKey r) ∧ r.timestamp = some (tsKey r) ∧ 0 ≤ tsKey r)
    (hsorted : List.Pairwise (fun a b => tsKey b ≤ tsKey a) L) :
    migrateRecords L = L.map collapseRec := by
  rw [migrate_eq_spec_aux]
  unfold specMigrateRecords
  rw [specNonEmptyUrls_of_nodup L hne hnd, List.map_map]
  have hcg : ∀ r ∈ L,
      ((fun u => finalizeRec ((specRepFor u L).getD emptyRec) (sortedDedup (specTsFor u L)))
        ∘ (fun x => x.url)) r = collapseRec r := by
    intro r hr
    show finalizeRec ((specRepFor r.url L).getD emptyRec) (sortedDedup (specTsFor r.url L))
      = collapseRec r
    have hrep : specRepFor r.url L = some r := by
      unfold specRepFor
      rw [filter_url_eq_of_nodup L r hnd hr]
      rfl
    rcases hts r hr with ⟨h1, h2, h3⟩
    have heff : effTs r = tsKey r := by
      unfold effTs
      rw [h1, h2]
      by_cases h0 : tsKey r = 0
      · simp [h0]
      · simp [h0]
    have hic : ∀ s : String, String.intercalate "," [s] = s := fun s => rfl
    have hl0 : ∀ x : Int, lastOr0 [x] = x := fun x => rfl
    by_cases hp : 0 < effTs r
    · have hpk : 0 < tsKey r := by rw [← heff]; exact hp
      have htsf : specTsFor r.url L = [effTs r] := by
        unfold specTsFor
        rw [filter_url_and_eq_of_nodup L r (fun e => decide (0 < effTs e)) hnd hr,
          if_pos (decide_eq_true hp)]
        rfl
      rw [hrep, htsf]
      have hsd : sortedDedup [effTs r] = [effTs r] := rfl
      rw [hsd]
      show finalizeRec r [effTs r] = collapseRec r
      rw [heff]
      simp [finalizeRec, collapseRec, hic, hl0, hpk, h1, h2]
    · have hp0 : ¬ 0 < tsKey r := by rw [← heff]; exact hp
      have htk0 : tsKey r = 0 := le_antisymm (not_lt.mp hp0) h3
      have htsf : specTsFor r.url L = [] := by
        unfold specTsFor
        rw [filter_url_and_eq_of_nodup L r (fun e => decide (0 < effTs e)) hnd hr,
          if_neg (by simpa using hp)]
        rfl
      rw [hrep, htsf]
      show finalizeRec r [] = collapseRec r
      have hic0 : String.intercalate "," ([] : List String) = "" := rfl
      simp [finalizeRec, collapseRec, lastOr0, hp0, h1, h2, htk0, hic0]
  rw [List.map_congr_left hcg]
  apply sortByTsDesc_eq_self
  rw [List.pairwise_map]
  exact hsorted

/-- Claim C3 (amended): a second migrator run writes no second backup (the
backup file is written, verbatim, only when absent, so the first run's
backup is preserved), and it does re-derive and rewrite the main file from
its current contents — but the result is not identical in general: it keeps
the first run's records, urls, `ts`/`timestamp` values and order, while
resetting each record's `play_count` to 1 (0 when its `ts` is 0) and its
`timestamps` string to just its own `ts`; the output coincides with the
first run's only when no track had two or more distinct positive
timestamps. -/
theorem c3_second_run_collapses (fs : MigrationFiles) :
    (runMigration fs).backup = some (fs.backup.getD fs.main) ∧
    (runMigration (runMigration fs)).backup = (runMigration fs).backup ∧
    (runMigration (runMigration fs)).main = (runMigration fs).main.map collapseRec := by
  obtain ⟨main, backup⟩ := fs
  refine ⟨?_, ?_, ?_⟩
  · cases backup <;> rfl
  · cases backup <;> rfl
  · show migrateRecords (migrateRecords main) = (migrateRecords main).map collapseRec
    obtain ⟨h1, h2, h3, h4⟩ := migrateRecords_props main
    exact migrate_collapse _ h1 h2 h3 h4

/-! ## Song model (`models/song.py`)

Strings are processed on `List Char`; percent-decoding and the `+`-to-space
step of Python's `parse_qs` are not modelled (the repository's video ids and
query values contain no percent-escapes), and the scheme splitter models
`urllib.parse.urlparse` for urls without params or userinfo. -/

/-- `s.lower()`. -/
def charsToLower (cs : List Char) : List Char := cs.map Char.toLower

def startsWithChars : List Char → List Char → Bool
  | [], _ => true
  | _ :: _, [] => false
  | p :: ps, c :: cs => p == c && startsWithChars ps cs

/-- Python's substring test `pat in s`. -/
def containsChars (pat : List Char) : List Char → Bool
  | [] => startsWithChars pat []
  | c :: cs => startsWithChars pat (c :: cs) || containsChars pat cs

def hasSubstr (s pat : String) : Bool := containsChars pat.toList s.toList

/-- Python `str.split(sep)` for a one-character separator. -/
def splitOnCharL (sep : Char) : List Char → List (List Char)
  | [] => [[]]
  | c :: cs =>
    if c = sep then [] :: splitOnCharL sep cs
    else
      match splitOnCharL sep cs with
      | [] => [[c]]
      | g :: gs => (c :: g) :: gs

/-- A valid url scheme: a letter followed by letters, digits, `+`, `-`, `.`. -/
def schemeOkChars : List Char → Bool
  | [] => false
  | c :: rest => c.isAlpha && rest.all (fun d => d.isAlphanum || d == '+' || d == '-' || d == '.')

/-- Strip a leading `scheme:` when present. -/
def afterDropScheme (cs : List Char) : List Char :=
  if (cs.takeWhile (fun c => c != ':')).length < cs.length ∧
      schemeOkChars (cs.takeWhile (fun c => c != ':')) = true then
    cs.drop ((cs.takeWhile (fun c => c != ':')).length + 1)
  else cs

structure UrlParts where
  netloc : List Char
  path : List Char
  query : List Char
deriving DecidableEq

/-- The url with its fragment stripped. -/
def urlNoFrag (url : String) : List Char := url.toList.takeWhile (fun c => c != '#')

/-- The url after fragment and scheme stripping. -/
def urlRest (url : String) : List Char := afterDropScheme (urlNoFrag url)

/-- The netloc: after `//`, up to the next `/` or `?`. -/
def urlNetloc (url : String) : List Char :=
  ((urlRest url).drop 2).takeWhile (fun c => c != '/' && c != '?')

/-- What follows the netloc. -/
def urlAfterNetloc (url : String) : List Char :=
  ((urlRest url).drop 2).drop (urlNetloc url).length

/-- The `netloc` / `path` / `query` split of `urllib.parse.urlparse`:
drop the fragment, drop the scheme, read the netloc after `//` up to the
next `/` or `?`, then split path and query at the first `?`. -/
def urlparseChars (url : String) : UrlParts :=
  if startsWithChars ['/', '/'] (urlRest url) then
    ⟨urlNetloc url, (urlAfterNetloc url).takeWhile (fun c => c != '?'),
      ((urlAfterNetloc url).dropWhile (fun c => c != '?')).drop 1⟩
  else
    ⟨[], (urlRest url).takeWhile (fun c => c != '?'),
      ((urlRest url).dropWhile (fun c => c != '?')).drop 1⟩

/-- The value a `key=value` query pair contributes for key `v`, skipping
pairs without `=` and pairs with a blank value, as `parse_qs` does by
default. -/
def qsPairVal (p : List Char) : Option (List Char) :=
  let k := p.takeWhile (fun c => c != '=')
  if k.length < p.length then
    let v := p.drop (k.length + 1)
    if k = ['v'] ∧ v ≠ [] then some v else none
  else none

/-- `parse_qs(query).get("v", [""])[0] or ""`: the first non-blank `v`
value of the query, or `""`. -/
def firstV : List (List Char) → String
  | [] => ""
  | p :: rest =>
    match qsPairVal p with
    | some v => String.mk v
    | none => firstV rest

/-- `StreamSong._extract_video_id`: watch urls by `?v=`, then `/shorts/<id>`,
`/embed/<id>`, then the `youtu.be/<id>` short form; empty on no match.
(`path.split("/shorts/")[1].split("/")[0]` equals taking the chars after
the guarded prefix up to the next `/`, since any later occurrence of the
pattern starts with `/`.) -/
def extractVideoId (url : String) : String :=
  let p := urlparseChars url
  let host := charsToLower p.netloc
  if containsChars "youtube.com".toList host ∧ containsChars "watch".toList p.path then
    firstV (splitOnCharL '&' p.query)
  else if containsChars "youtube.com".toList host ∧ startsWithChars "/shorts/".toList p.path then
    String.mk (((p.path.drop 8).takeWhile (fun c => c != '/')).takeWhile (fun c => c != '?'))
  else if containsChars "youtube.com".toList host ∧ startsWithChars "/embed/".toList p.path then
    String.mk (((p.path.drop 7).takeWhile (fun c => c != '/')).takeWhile (fun c => c != '?'))
  else if containsChars "youtu.be".toList host then
    String.mk ((p.path.dropWhile (fun c => c == '/')).takeWhile (fun c => c != '?'))
  else ""

/-- `StreamSong._get_hq_thumbnail_url`. -/
def hqThumbUrl (video_id : String) : String :=
  if video_id = "" then ""
  else "https://img.youtube.com/vi/" ++ video_id ++ "/maxresdefault.jpg"

/-- A character a YouTube video id may contain (used only to state claims
about well-formed watch urls). -/
def goodIdChar (c : Char) : Bool := c.isAlphanum || c == '-' || c == '_'

/-- A well-formed video id: non-empty, over the id alphabet. -/
def goodId (s : String) : Bool := s != "" && s.toList.all goodIdChar

/-- `None`-or-empty-string, Python falsiness of an optional string field. -/
def optStrFalsy : Option String → Bool
  | none => true
  | some s => s == ""

/-- `os.path.basename` (posix): the part after the last `/`. -/
def basenameChars (cs : List Char) : List Char :=
  (cs.reverse.takeWhile (fun c => c != '/')).reverse

/-- The extension part of `os.path.splitext` applied to a basename: from the
last dot, unless every character before it is a dot (so `.bashrc` has no
extension). -/
def splitextExtChars (b : List Char) : List Char :=
  let core := b.dropWhile (fun c => c == '.')
  if core.any (fun c => c == '.') then
    '.' :: (core.reverse.takeWhile (fun c => c != '.')).reverse
  else []

/-- `LocalSong._extract_title_from_url`: file name without its extension. -/
def localTitleFallback (p : String) : String :=
  let b := basenameChars p.toList
  let ext := splitextExtChars b
  String.mk (b.take (b.length - ext.length))

/-- `StreamSong` instance state. -/
structure StreamSongM where
  url : String
  title : String
  type : String
  duration : Int
  timestamp : Int
  thumbnail_url : Option String
  stream_url : String
  stream_type : String
  video_id : String
deriving DecidableEq, Repr

/-- `StreamSong.__init__`: parse the video id, auto-derive a high-quality
thumbnail when none is given and the type is youtube, then the base `Song`
init (placeholder title when the given title is falsy). -/
def mkStreamSong (stream_url : String) (title : Option String) (stream_type : String)
    (duration : Int) (thumbnail_url : Option String) (now : Int) : StreamSongM :=
  let vid := extractVideoId stream_url
  let thumb :=
    if optStrFalsy thumbnail_url then
      if stream_type = "youtube" ∧ vid ≠ "" then some (hqThumbUrl vid) else thumbnail_url
    else thumbnail_url
  let t :=
    match title with
    | some s => if s = "" then "加载中…" else s
    | none => "加载中…"
  ⟨stream_url, t, stream_type, duration, now, thumb, stream_url, stream_type, vid⟩

/-- `StreamSong.is_youtube`. -/
def StreamSongM.is_youtube (s : StreamSongM) : Bool :=
  s.stream_type == "youtube" || hasSubstr (String.mk (charsToLower s.stream_url.toList)) "youtube"

/-- `StreamSong.get_thumbnail_url()` at the default `maxres` quality. -/
def StreamSongM.get_thumbnail_url (s : StreamSongM) : String :=
  if s.is_youtube && s.video_id != "" then
    "https://img.youtube.com/vi/" ++ s.video_id ++ "/maxresdefault.jpg"
  else ""

/-- `LocalSong` instance state (the on-demand filesystem reads `exists`
and `get_file_size` are external effects and are not modelled). -/
structure LocalSongM where
  url : String
  title : String
  type : String
  duration : Int
  timestamp : Int
  thumbnail_url : Option String
  file_path : String
  file_name : String
  file_extension : String
deriving DecidableEq, Repr

/-- `LocalSong.__init__`: base `Song` init with the filename-derived title
fallback, plus the derived `file_name` / `file_extension` fields. -/
def mkLocalSong (file_path : String) (title : Option String) (duration : Int)
    (now : Int) : LocalSongM :=
  let b := basenameChars file_path.toList
  let t :=
    match title with
    | some s => if s = "" then localTitleFallback file_path else s
    | none => localTitleFallback file_path
  ⟨file_path, t, "local", duration, now, none, file_path, String.mk b,
    String.mk (charsToLower (splitextExtChars b))⟩

/-- A constructed `Song` object: the Local or Stream variant. -/
inductive SongObj where
  | localS (s : LocalSongM)
  | streamS (s : StreamSongM)
deriving DecidableEq, Repr

/-- The dictionary fields `Song.from_dict` and the playlist hydration read
(`none` = key absent). -/
structure SongDict where
  url : Option String
  type : Option String
  title : Option String
  duration : Option Int
  thumbnail_url : Option String
deriving DecidableEq, Repr

/-- `Song.from_dict`: dispatch on the `type` field, `"local"` (or missing)
to `LocalSong`, anything else to `StreamSong` with that type. -/
def Song.from_dict (d : SongDict) (now : Int) : SongObj :=
  let song_type := d.type.getD "local"
  if song_type = "local" then
    .localS (mkLocalSong (d.url.getD "") d.title (d.duration.getD 0) now)
  else
    .streamS (mkStreamSong (d.url.getD "") d.title song_type (d.duration.getD 0)
      d.thumbnail_url now)

/-! ## Playlist and collection (`models/playlists.py`) -/

/-- An element of a playlist's `songs` list: a structured song record or a
legacy bare path string. -/
inductive SongEntry where
  | path (p : String)
  | dict (d : SongDict)
deriving DecidableEq, Repr

/-- The shared thumbnail-completion step (inlined both in
`Playlist._hydrate_stream_thumbnails` and in `Playlist.add_song`): for a
stream-typed record with a falsy `thumbnail_url`, build a `StreamSong` from
the record's fields and store its derived thumbnail when non-empty.  Returns
the (possibly updated) record and whether it changed.  The Python `except`
guard is dead in this model, because the construction cannot throw. -/
def hydrateSongDict (d : SongDict) (now : Int) : SongDict × Bool :=
  if (d.type == some "youtube" || d.type == some "stream") && optStrFalsy d.thumbnail_url then
    let s := mkStreamSong (d.url.getD "") d.title (d.type.getD "") (d.duration.getD 0) none now
    let thumb := s.get_thumbnail_url
    if thumb != "" then ({ d with thumbnail_url := some thumb }, true) else (d, false)
  else (d, false)

/-- Hydration of one `songs` entry; bare strings are skipped. -/
def hydrateEntry (e : SongEntry) (now : Int) : SongEntry × Bool :=
  match e with
  | .path p => (.path p, false)
  | .dict d =>
    let r := hydrateSongDict d now
    (.dict r.1, r.2)

/-- `Playlist._hydrate_stream_thumbnails` over the whole list. -/
def hydrateSongs (songs : List SongEntry) (now : Int) : List SongEntry × Bool :=
  songs.foldr (fun e acc =>
    let r := hydrateEntry e now
    (r.1 :: acc.1, r.2 || acc.2)) ([], false)

/-- `Playlist` instance state. -/
structure PlaylistM where
  id : String
  name : String
  songs : List SongEntry
  created_at : Int
  updated_at : Int
  current_playing_index : Int
deriving DecidableEq, Repr

/-- `Playlist._hydrate_stream_thumbnails`: patch the entries in place and
refresh `updated_at` when anything changed. -/
def PlaylistM.hydrate (pl : PlaylistM) (now : Int) : PlaylistM × Bool :=
  let r := hydrateSongs pl.songs now
  if r.2 then ({ pl with songs := r.1, updated_at := now }, true)
  else ({ pl with songs := r.1 }, false)

/-- Python's `x or default` for an optional string (`None` and `""` fall to
the default). -/
def pyOrStr (x : Option String) (dflt : String) : String :=
  match x with
  | some s => if s = "" then dflt else s
  | none => dflt

/-- Python's `x or default` for an optional number (`None` and `0` fall to
the default). -/
def pyOrInt (x : Option Int) (dflt : Int) : Int :=
  match x with
  | some t => if t = 0 then dflt else t
  | none => dflt

/-- `Playlist.__init__` (and the hydration it runs): missing/falsy id is
replaced by the generated millisecond id, modelled as `toString now`;
missing/falsy timestamps become `now`. -/
def mkPlaylist (pid : Option String) (name : String) (songs : List SongEntry)
    (ca ua : Option Int) (cpi : Int) (now : Int) : PlaylistM :=
  let base : PlaylistM :=
    { id := pyOrStr pid (toString now),
      name := name,
      songs := songs,
      created_at := pyOrInt ca now,
      updated_at := pyOrInt ua now,
      current_playing_index := cpi }
  (base.hydrate now).1

/-- The dictionary fields `Playlist.from_dict` reads. -/
structure PlaylistDict where
  id : Option String
  name : Option String
  songs : List SongEntry
  created_at : Option Int
  updated_at : Option Int
  current_playing_index : Option Int
deriving DecidableEq, Repr

/-- `Playlist.from_dict`. -/
def PlaylistM.from_dict (d : PlaylistDict) (now : Int) : PlaylistM :=
  mkPlaylist d.id (d.name.getD "未命名歌单") d.songs d.created_at d.updated_at
    (d.current_playing_index.getD (-1)) now

/-- `any(isinstance(s, dict) and s.get("url") == url for s in songs)`. -/
def hasDictUrl (songs : List SongEntry) (u : Option String) : Bool :=
  songs.any (fun s =>
    match s with
    | .dict sd => sd.url == u
    | .path _ => false)

/-- `Playlist.add_song`: records are thumbnail-hydrated first and
deduplicated against the record entries by url; legacy bare strings are
deduplicated by Python `in`, which can never equate a string with a record
entry.  On success the entry is prepended and `updated_at` refreshed. -/
def PlaylistM.add_song (pl : PlaylistM) (entry : SongEntry) (now : Int) :
    PlaylistM × Bool :=
  match entry with
  | .dict d0 =>
    let d := (hydrateSongDict d0 now).1
    if hasDictUrl pl.songs d.url then (pl, false)
    else ({ pl with songs := .dict d :: pl.songs, updated_at := now }, true)
  | .path p =>
    if SongEntry.path p ∈ pl.songs then (pl, false)
    else ({ pl with songs := .path p :: pl.songs, updated_at := now }, true)

/-- `Playlist.remove_song_at_index`: bounds-checked pop returning the
removed entry, `none` when the index is invalid. -/
def PlaylistM.remove_song_at_index (pl : PlaylistM) (index : Int) (now : Int) :
    PlaylistM × Option SongEntry :=
  if 0 ≤ index ∧ index < (pl.songs.length : Int) then
    ({ pl with songs := pl.songs.eraseIdx index.toNat, updated_at := now },
      pl.songs.get? index.toNat)
  else (pl, none)

/-- All entries hashable, i.e. no record entries: `set()` on a list with a
dict element raises `TypeError` in Python. -/
def allHashable (l : List SongEntry) : Bool :=
  l.all (fun s =>
    match s with
    | .path _ => true
    | .dict _ => false)

/-- `set(l1) == set(l2)` on hashable entries. -/
def sameElems (l1 l2 : List SongEntry) : Bool :=
  l1.all (fun x => l2.contains x) && l2.all (fun x => l1.contains x)

/-- `Playlist.reorder_songs`: replace `songs` by the supplied list exactly
when the two element sets coincide; `Except.error` models the `TypeError`
Python's `set()` raises on unhashable (record) entries. -/
def PlaylistM.reorder_songs (pl : PlaylistM) (new_order : List SongEntry) (now : Int) :
    Except Unit (PlaylistM × Bool) :=
  if allHashable new_order && allHashable pl.songs then
    if sameElems new_order pl.songs then
      .ok ({ pl with songs := new_order, updated_at := now }, true)
    else .ok (pl, false)
  else .error ()

/-- The url under which an entry is deduplicated, as the spec reads it: a
record's `url` field, a bare path string itself.  (Claim vocabulary, not
code.) -/
def entryUrlKey : SongEntry → Option String
  | .path p => some p
  | .dict d => d.url

/-- Python truthiness of a songs entry: a non-empty string or a record with
at least one (modelled) key. -/
def pyTruthyEntry : SongEntry → Bool
  | .path p => p != ""
  | .dict d =>
    !(d.url == none && d.type == none && d.title == none && d.duration == none &&
      d.thumbnail_url == none)

/-- Truthiness of an optional removal result (`None` is falsy). -/
def pyTruthyOpt : Option SongEntry → Bool
  | none => false
  | some e => pyTruthyEntry e

/-- `Playlists` instance state: the id-keyed registry (insertion-ordered
dict) and the display-order id list. -/
structure PlaylistsM where
  playlists : List (String × PlaylistM)
  order : List String
deriving DecidableEq, Repr

/-- `set(l1) == set(l2)` on id lists. -/
def sameStrElems (l1 l2 : List String) : Bool :=
  l1.all (fun x => l2.contains x) && l2.all (fun x => l1.contains x)

/-- `Playlists.reorder_playlists`: result is (state, returned bool, whether
`save()` ran). -/
def PlaylistsM.reorder_playlists (st : PlaylistsM) (new_order : List String) :
    PlaylistsM × Bool × Bool :=
  if sameStrElems new_order st.order then
    ({ st with order := new_order }, true, true)
  else (st, false, false)

/-- `Playlists.remove_song_at_index`: delegate to the playlist (which
mutates in place), then save only when the removed value is truthy.
Result is (state, removed entry, whether `save()` ran). -/
def PlaylistsM.remove_song_at_index (st : PlaylistsM) (pid : String) (index : Int)
    (now : Int) : PlaylistsM × Option SongEntry × Bool :=
  match st.playlists.lookup pid with
  | none => (st, none, false)
  | some pl =>
    let r := pl.remove_song_at_index index now
    let st' := { st with playlists := updAssoc pid r.1 st.playlists }
    match r.2 with
    | none => (st', none, false)
    | some e => (st', some e, pyTruthyEntry e)

/-- The parsed shapes of the playlist store file. -/
inductive StoreJson where
  | jlist (ps : List PlaylistDict)
  | jdict (order : List String) (ps : List PlaylistDict)
  | jother
deriving DecidableEq, Repr

/-- What `Playlists.load` finds on disk. -/
inductive LoadInput where
  | missing
  | corrupt
  | content (j : StoreJson)
deriving DecidableEq, Repr

/-- The per-playlist body of the `load` loop: construct from the dict (a
second hydration runs on the already-hydrated playlist), register under its
id, and append the id to `order` if absent. -/
structure LoadAcc where
  playlists : List (String × PlaylistM)
  order : List String
  changed : Bool
deriving DecidableEq, Repr

def loadStep (now : Int) (acc : LoadAcc) (d : PlaylistDict) : LoadAcc :=
  let pl0 := PlaylistM.from_dict d now
  let h := pl0.hydrate now
  let pl := h.1
  { playlists := updAssoc pl.id pl acc.playlists,
    order := if pl.id ∈ acc.order then acc.order else acc.order ++ [pl.id],
    changed := acc.changed || h.2 }

/-- `Playlists.load` on a fresh instance (as run by the constructor): read
the two accepted shapes or reset on a missing/corrupt file, then guarantee
the default playlist, prepending its id to `order` and saving when it had to
be created.  Result is (state, whether any `save()` ran during load). -/
def PlaylistsM.loadFrom (inp : LoadInput) (now : Int) : PlaylistsM × Bool :=
  let acc : LoadAcc :=
    match inp with
    | .missing => ⟨[], [], false⟩
    | .corrupt => ⟨[], [], false⟩
    | .content j =>
      match j with
      | .jlist ps => ps.foldl (loadStep now) ⟨[], [], false⟩
      | .jdict ord ps => ps.foldl (loadStep now) ⟨[], ord, false⟩
      | .jother => ⟨[], [], false⟩
  if (acc.playlists.lookup "default").isSome then
    (⟨acc.playlists, acc.order⟩, acc.changed)
  else
    let dpl := mkPlaylist (some "default") "默认歌单" [] none none (-1) now
    (⟨updAssoc "default" dpl acc.playlists,
      if "default" ∈ acc.order then acc.order else "default" :: acc.order⟩, true)

/-! ### Extraction of the video id from a well-formed watch url -/

theorem takeWhile_all {A : Type} (p : A → Bool) (xs : List A)
    (h : ∀ a ∈ xs, p a = true) : xs.takeWhile p = xs := by
  induction xs with
  | nil => rfl
  | cons x l ih =>
    rw [List.takeWhile_cons, if_pos (h x (List.mem_cons_self x l)),
      ih (fun a ha => h a (List.mem_cons_of_mem _ ha))]

theorem takeWhile_append_all {A : Type} (p : A → Bool) (xs ys : List A)
    (h : ∀ a ∈ xs, p a = true) : (xs ++ ys).takeWhile p = xs ++ ys.takeWhile p := by
  induction xs with
  | nil => rfl
  | cons x l ih =>
    rw [List.cons_append, List.takeWhile_cons, if_pos (h x (List.mem_cons_self x l)),
      ih (fun a ha => h a (List.mem_cons_of_mem _ ha)), List.cons_append]

theorem takeWhile_append_stop {A : Type} (p : A → Bool) (xs ys : List A)
    (h : xs.takeWhile p ≠ xs) : (xs ++ ys).takeWhile p = xs.takeWhile p := by
  induction xs with
  | nil => exact absurd rfl h
  | cons x l ih =>
    rw [List.cons_append, List.takeWhile_cons, List.takeWhile_cons]
    by_cases hp : p x = true
    · rw [if_pos hp, if_pos hp]
      rw [List.takeWhile_cons, if_pos hp] at h
      have h2 : l.takeWhile p ≠ l := fun he => h (by rw [he])
      rw [ih h2]
    · rw [if_neg hp, if_neg hp]

theorem dropWhile_append_stop {A : Type} (p : A → Bool) (xs ys : List A)
    (h : xs.takeWhile p ≠ xs) : (xs ++ ys).dropWhile p = xs.dropWhile p ++ ys := by
  induction xs with
  | nil => exact absurd rfl h
  | cons x l ih =>
    rw [List.cons_append, List.dropWhile_cons, List.dropWhile_cons]
    by_cases hp : p x = true
    · rw [if_pos hp, if_pos hp]
      rw [List.takeWhile_cons, if_pos hp] at h
      exact ih (fun he => h (by rw [he]))
    · rw [if_neg hp, if_neg hp, List.cons_append]

theorem splitOnCharL_no_sep (sep : Char) (l : List Char)
    (h : ∀ c ∈ l, (c != sep) = true) : splitOnCharL sep l = [l] := by
  induction l with
  | nil => rfl
  | cons c cs ih =>
    have hc : ¬ c = sep := by
      have := h c (List.mem_cons_self c cs)
      simpa [bne_iff_ne] using this
    show (if c = sep then [] :: splitOnCharL sep cs
      else match splitOnCharL sep cs with
        | [] => [[c]]
        | g :: gs => (c :: g) :: gs) = [c :: cs]
    rw [if_neg hc, ih (fun a ha => h a (List.mem_cons_of_mem _ ha))]

theorem goodId_facts (id : String) (hid : goodId id = true) :
    id.toList ≠ [] ∧ ∀ c ∈ id.toList,
      (c != '#') = true ∧ (c != ':') = true ∧ (c != '/') = true ∧
      (c != '?') = true ∧ (c != '&') = true ∧ (c != '=') = true := by
  have hbits := (Bool.and_eq_true _ _).mp hid
  have hgood : ∀ c ∈ id.toList, goodIdChar c = true :=
    fun c hc => List.all_eq_true.mp hbits.2 c hc
  constructor
  · intro he
    have h0 : id = "" := by
      cases id with
      | mk data =>
        cases data with
        | nil => rfl
        | cons c cs => exact absurd he (by simp [String.toList])
    rw [h0] at hbits
    exact absurd hbits.1 (by decide)
  · intro c hc
    have hg := hgood c hc
    refine ⟨?_, ?_, ?_, ?_, ?_, ?_⟩ <;>
      · rw [bne_iff_ne]
        intro he
        subst he
        exact absurd hg (by decide)

theorem extractVideoId_watch (id : String) (hid : goodId id = true) :
    extractVideoId ("https://www.youtube.com/watch?v=" ++ id) = id := by
  rcases goodId_facts id hid with ⟨hne, hI⟩
  have h0 : urlNoFrag ("https://www.youtube.com/watch?v=" ++ id) =
      "https://www.youtube.com/watch?v=".toList ++ id.toList := by
    unfold urlNoFrag
    have hsp : ("https://www.youtube.com/watch?v=" ++ id).toList =
        "https://www.youtube.com/watch?v=".toList ++ id.toList := rfl
    rw [hsp, takeWhile_append_all _ _ _ (by decide),
      takeWhile_all _ _ (fun c hc => (hI c hc).1)]
  have h1 : urlRest ("https://www.youtube.com/watch?v=" ++ id) =
      "//www.youtube.com/watch?v=".toList ++ id.toList := by
    unfold urlRest afterDropScheme
    rw [h0]
    have hpre : ("https://www.youtube.com/watch?v=".toList ++ id.toList).takeWhile
        (fun c => c != ':') = "https".toList := by
      rw [takeWhile_append_stop _ _ _ (by decide)]
      decide
    rw [hpre]
    have hlen : ("https".toList).length < ("https://www.youtube.com/watch?v=".toList ++ id.toList).length := by
      rw [List.length_append]
      have e1 : ("https".toList).length = 5 := by decide
      have e2 : ("https://www.youtube.com/watch?v=".toList).length = 32 := by decide
      rw [e1, e2]
      omega
    rw [if_pos ⟨hlen, by decide⟩]
    have e1 : ("https".toList).length + 1 = 6 := by decide
    rw [e1, List.drop_append_of_le_length (by decide)]
    congr 1
  have h2 : startsWithChars ['/', '/'] (urlRest ("https://www.youtube.com/watch?v=" ++ id)) = true := by
    rw [h1]
    rfl
  have h3 : (urlRest ("https://www.youtube.com/watch?v=" ++ id)).drop 2 =
      "www.youtube.com/watch?v=".toList ++ id.toList := by
    rw [h1, List.drop_append_of_le_length (by decide)]
    congr 1
  have h4 : urlNetloc ("https://www.youtube.com/watch?v=" ++ id) = "www.youtube.com".toList := by
    unfold urlNetloc
    rw [h3, takeWhile_append_stop _ _ _ (by decide)]
    decide
  have h5 : urlAfterNetloc ("https://www.youtube.com/watch?v=" ++ id) =
      "/watch?v=".toList ++ id.toList := by
    unfold urlAfterNetloc
    rw [h3, h4]
    have e1 : ("www.youtube.com".toList).length = 15 := by decide
    rw [e1, List.drop_append_of_le_length (by decide)]
    congr 1
  have hparse : urlparseChars ("https://www.youtube.com/watch?v=" ++ id) =
      ⟨"www.youtube.com".toList, "/watch".toList, "v=".toList ++ id.toList⟩ := by
    unfold urlparseChars
    rw [h2]
    rw [if_pos rfl]
    have hpath : (urlAfterNetloc ("https://www.youtube.com/watch?v=" ++ id)).takeWhile
        (fun c => c != '?') = "/watch".toList := by
      rw [h5, takeWhile_append_stop _ _ _ (by decide)]
      decide
    have hq : ((urlAfterNetloc ("https://www.youtube.com/watch?v=" ++ id)).dropWhile
        (fun c => c != '?')).drop 1 = "v=".toList ++ id.toList := by
      rw [h5, dropWhile_append_stop _ _ _ (by decide)]
      have e1 : ("/watch?v=".toList).dropWhile (fun c => c != '?') = "?v=".toList := by decide
      rw [e1]
      rfl
    rw [h4, hpath, hq]
  unfold extractVideoId
  rw [hparse]
  have hcond : containsChars "youtube.com".toList (charsToLower
      ((⟨"www.youtube.com".toList, "/watch".toList, "v=".toList ++ id.toList⟩ : UrlParts)).netloc) = true ∧
      containsChars "watch".toList
        ((⟨"www.youtube.com".toList, "/watch".toList, "v=".toList ++ id.toList⟩ : UrlParts)).path = true := by
    constructor
    · show containsChars "youtube.com".toList (charsToLower "www.youtube.com".toList) = true
      decide
    · show containsChars "watch".toList "/watch".toList = true
      decide
  rw [if_pos hcond]
  have hqs : splitOnCharL '&'
      ((⟨"www.youtube.com".toList, "/watch".toList, "v=".toList ++ id.toList⟩ : UrlParts).query) =
      ["v=".toList ++ id.toList] := by
    apply splitOnCharL_no_sep
    intro c hc
    have hc2 : c ∈ ('v' :: '=' :: id.toList) := hc
    rcases List.mem_cons.mp hc2 with h | h
    · rw [h]; decide
    · rcases List.mem_cons.mp h with h | h
      · rw [h]; decide
      · exact (hI c h).2.2.2.2.1
  rw [hqs]
  show (match qsPairVal ("v=".toList ++ id.toList) with
    | some v => String.mk v
    | none => firstV []) = id
  have hk : ("v=".toList ++ id.toList).takeWhile (fun c => c != '=') = ['v'] := by
    show (('v' :: '=' :: id.toList).takeWhile (fun c => c != '=')) = ['v']
    rw [List.takeWhile_cons, if_pos (by decide), List.takeWhile_cons, if_neg (by decide)]
  have hpv : qsPairVal ("v=".toList ++ id.toList) = some id.toList := by
    unfold qsPairVal
    rw [hk]
    have hlen : (['v'] : List Char).length < ("v=".toList ++ id.toList).length := by
      have e1 : ("v=".toList ++ id.toList).length = id.toList.length + 2 := by
        rw [List.length_append]
        have : ("v=".toList).length = 2 := by decide
        rw [this]
        omega
      rw [e1]
      simp
    rw [if_pos hlen]
    have hdrop : ("v=".toList ++ id.toList).drop ((['v'] : List Char).length + 1) = id.toList := by
      have e1 : (['v'] : List Char).length + 1 = 2 := by decide
      rw [e1]
      rfl
    rw [hdrop]
    rw [if_pos ⟨rfl, hne⟩]
  rw [hpv]
  rfl


theorem mkStreamSong_video_id (u : String) (t : Option String) (st : String) (dur : Int)
    (th : Option String) (now : Int) :
    (mkStreamSong u t st dur th now).video_id = extractVideoId u := rfl

theorem mkStreamSong_stream_type (u : String) (t : Option String) (st : String) (dur : Int)
    (th : Option String) (now : Int) :
    (mkStreamSong u t st dur th now).stream_type = st := rfl

theorem append_ne_empty_left (a b : String) (h : a ≠ "") : a ++ b ≠ "" := by
  intro he
  apply h
  have h2 : a.toList ++ b.toList = [] := by
    have h3 : (a ++ b).toList = ("" : String).toList := by rw [he]
    exact h3
  rcases List.append_eq_nil.mp h2 with ⟨h3, _⟩
  cases a with
  | mk data =>
    cases data with
    | nil => rfl
    | cons c cs => simp [String.toList] at h3

theorem watchThumb_ne (id : String) :
    ("https://img.youtube.com/vi/" ++ id ++ "/maxresdefault.jpg") ≠ "" :=
  append_ne_empty_left _ _ (append_ne_empty_left _ _ (by decide))

/-- Claim C7: adding to a playlist a record with `type = "youtube"`, a valid
watch url carrying a well-formed `?v=` video id, and no `thumbnail_url`
(and no record entry already stored under that url) succeeds, and the stored
record carries the non-empty thumbnail url derived from that id via the
`img.youtube.com` template. -/
theorem c7_add_youtube_watch_derives_thumbnail (pl : PlaylistM) (d : SongDict)
    (id : String) (now : Int)
    (hid : goodId id = true)
    (hurl : d.url = some ("https://www.youtube.com/watch?v=" ++ id))
    (htype : d.type = some "youtube")
    (hthumb : d.thumbnail_url = none)
    (hfresh : hasDictUrl pl.songs d.url = false) :
    pl.add_song (.dict d) now =
      ({ pl with
          songs := .dict { d with
              thumbnail_url := some ("https://img.youtube.com/vi/" ++ id ++ "/maxresdefault.jpg") } :: pl.songs,
          updated_at := now }, true) ∧
    ("https://img.youtube.com/vi/" ++ id ++ "/maxresdefault.jpg") ≠ "" := by
  have hvid := extractVideoId_watch id hid
  have hs : (mkStreamSong (d.url.getD "") d.title (d.type.getD "") (d.duration.getD 0)
      none now).get_thumbnail_url =
      "https://img.youtube.com/vi/" ++ id ++ "/maxresdefault.jpg" := by
    rw [hurl, htype]
    simp only [Option.getD_some]
    unfold StreamSongM.get_thumbnail_url
    have h1 : (mkStreamSong ("https://www.youtube.com/watch?v=" ++ id) d.title "youtube"
        (d.duration.getD 0) none now).video_id = id := by
      rw [mkStreamSong_video_id, hvid]
    have h2 : (mkStreamSong ("https://www.youtube.com/watch?v=" ++ id) d.title "youtube"
        (d.duration.getD 0) none now).is_youtube = true := by
      unfold StreamSongM.is_youtube
      rw [mkStreamSong_stream_type]
      simp
    have hidne : id ≠ "" := by
      have hb := ((Bool.and_eq_true _ _).mp hid).1
      simpa [bne_iff_ne] using hb
    rw [h1, h2, if_pos (by simp [hidne])]
  have hhyd : hydrateSongDict d now = ({ d with
      thumbnail_url := some ("https://img.youtube.com/vi/" ++ id ++ "/maxresdefault.jpg") }, true) := by
    unfold hydrateSongDict
    have hc : ((d.type == some "youtube" || d.type == some "stream") &&
        optStrFalsy d.thumbnail_url) = true := by
      rw [htype, hthumb]
      decide
    rw [if_pos hc]
    show (if (mkStreamSong (d.url.getD "") d.title (d.type.getD "") (d.duration.getD 0)
          none now).get_thumbnail_url != "" then
        ({ d with thumbnail_url := some ((mkStreamSong (d.url.getD "") d.title (d.type.getD "")
            (d.duration.getD 0) none now).get_thumbnail_url) }, true)
      else (d, false)) = _
    rw [hs, if_pos (by rw [bne_iff_ne]; exact watchThumb_ne id)]
  refine ⟨?_, watchThumb_ne id⟩
  show (if hasDictUrl pl.songs ((hydrateSongDict d now).1).url then (pl, false)
      else ({ pl with
                songs := .dict (hydrateSongDict d now).1 :: pl.songs,
                updated_at := now }, true)) = _
  rw [hhyd]
  show (if hasDictUrl pl.songs d.url then (pl, false)
      else ({ pl with
                songs := .dict { d with
                  thumbnail_url := some ("https://img.youtube.com/vi/" ++ id ++ "/maxresdefault.jpg") } :: pl.songs,
                updated_at := now }, true)) = _
  rw [if_neg (by rw [hfresh]; simp)]

/-- Witness for C7 at a concrete watch url. -/
theorem c7_add_youtube_watch_derives_thumbnail_witness :
    (⟨"p", "n", [], 0, 0, -1⟩ : PlaylistM).add_song
      (.dict ⟨some ("https://www.youtube.com/watch?v=" ++ "dQw4w9WgXcQ"), some "youtube",
        none, none, none⟩) 9 =
      (⟨"p", "n", [.dict ⟨some ("https://www.youtube.com/watch?v=" ++ "dQw4w9WgXcQ"),
            some "youtube", none, none,
            some ("https://img.youtube.com/vi/" ++ "dQw4w9WgXcQ" ++ "/maxresdefault.jpg")⟩],
          0, 9, -1⟩, true) :=
  (c7_add_youtube_watch_derives_thumbnail ⟨"p", "n", [], 0, 0, -1⟩
    ⟨some ("https://www.youtube.com/watch?v=" ++ "dQw4w9WgXcQ"), some "youtube",
      none, none, none⟩
    "dQw4w9WgXcQ" 9 (by decide) rfl rfl rfl (by decide)).1

/-! ### Claims C4 and C5: deduplication in `Playlist.add_song` -/

theorem hydrateSongDict_url (d : SongDict) (now : Int) :
    ((hydrateSongDict d now).1).url = d.url := by
  by_cases hc : ((d.type == some "youtube" || d.type == some "stream") &&
      optStrFalsy d.thumbnail_url) = true
  · have h1 : hydrateSongDict d now =
        (if (mkStreamSong (d.url.getD "") d.title (d.type.getD "") (d.duration.getD 0)
            none now).get_thumbnail_url != "" then
          ({ d with thumbnail_url := some ((mkStreamSong (d.url.getD "") d.title (d.type.getD "")
              (d.duration.getD 0) none now).get_thumbnail_url) }, true)
        else (d, false)) := by
      unfold hydrateSongDict
      rw [if_pos hc]
    rw [h1]
    split
    · rfl
    · rfl
  · have h1 : hydrateSongDict d now = (d, false) := by
      unfold hydrateSongDict
      rw [if_neg hc]
    rw [h1]

theorem add_song_path_eq (pl : PlaylistM) (p : String) (n : Int) :
    pl.add_song (.path p) n =
      if SongEntry.path p ∈ pl.songs then (pl, false)
      else ({ pl with songs := .path p :: pl.songs, updated_at := n }, true) := rfl

theorem add_song_dict_eq (pl : PlaylistM) (d0 : SongDict) (n : Int) :
    pl.add_song (.dict d0) n =
      if hasDictUrl pl.songs ((hydrateSongDict d0 n).1).url then (pl, false)
      else ({ pl with songs := .dict (hydrateSongDict d0 n).1 :: pl.songs, updated_at := n },
        true) := rfl

theorem add_song_path_mem (pl : PlaylistM) (p : String) (n : Int)
    (h : SongEntry.path p ∈ pl.songs) : pl.add_song (.path p) n = (pl, false) := by
  rw [add_song_path_eq, if_pos h]

theorem add_song_path_not_mem (pl : PlaylistM) (p : String) (n : Int)
    (h : SongEntry.path p ∉ pl.songs) :
    pl.add_song (.path p) n =
      ({ pl with songs := .path p :: pl.songs, updated_at := n }, true) := by
  rw [add_song_path_eq, if_neg h]

theorem add_song_dict_mem (pl : PlaylistM) (d0 : SongDict) (n : Int)
    (h : hasDictUrl pl.songs ((hydrateSongDict d0 n).1).url = true) :
    pl.add_song (.dict d0) n = (pl, false) := by
  rw [add_song_dict_eq, if_pos h]

theorem add_song_dict_not_mem (pl : PlaylistM) (d0 : SongDict) (n : Int)
    (h : hasDictUrl pl.songs ((hydrateSongDict d0 n).1).url = false) :
    pl.add_song (.dict d0) n =
      ({ pl with songs := .dict (hydrateSongDict d0 n).1 :: pl.songs, updated_at := n },
        true) := by
  rw [add_song_dict_eq, if_neg (by rw [h]; simp)]

/-- Claim C4 (counterexample): a record entry and a legacy bare-string entry
carry the same url, yet the second `add_song` call also succeeds: the url
dedup check of each kind ignores entries of the other kind. -/
theorem c4_mixed_kind_same_url_not_rejected :
    ((⟨"p", "n", [], 0, 0, -1⟩ : PlaylistM).add_song
        (.dict ⟨some "x", none, some "t", some 1, none⟩) 5).1.add_song (.path "x") 6 =
      (⟨"p", "n", [.path "x", .dict ⟨some "x", none, some "t", some 1, none⟩], 0, 6, -1⟩,
        true) ∧
    entryUrlKey (.dict ⟨some "x", none, some "t", some 1, none⟩) =
      entryUrlKey (.path "x") := by
  decide

/-- Claim C4 (amended): re-adding the very same entry is always rejected with
the playlist unchanged, and a successful add prepends the (thumbnail-hydrated)
entry at index 0 and refreshes `updated_at`; the url dedup is per
representation kind, not across kinds. -/
theorem c4_readd_same_entry_rejected (pl : PlaylistM) (entry : SongEntry) (n1 n2 : Int) :
    (pl.add_song entry n1).1.add_song entry n2 = ((pl.add_song entry n1).1, false) ∧
    ((pl.add_song entry n1).2 = true →
      (pl.add_song entry n1).1 =
        { pl with songs := (hydrateEntry entry n1).1 :: pl.songs, updated_at := n1 }) := by
  cases entry with
  | path p =>
    by_cases hp : SongEntry.path p ∈ pl.songs
    · rw [add_song_path_mem pl p n1 hp]
      refine ⟨add_song_path_mem pl p n2 hp, fun hfalse => ?_⟩
      simp at hfalse
    · rw [add_song_path_not_mem pl p n1 hp]
      refine ⟨?_, fun _ => rfl⟩
      exact add_song_path_mem _ p n2 (List.mem_cons_self _ _)
  | dict d0 =>
    have hu1 := hydrateSongDict_url d0 n1
    have hu2 := hydrateSongDict_url d0 n2
    by_cases hd : hasDictUrl pl.songs ((hydrateSongDict d0 n1).1).url = true
    · rw [add_song_dict_mem pl d0 n1 hd]
      refine ⟨add_song_dict_mem pl d0 n2 (by rw [hu2, ← hu1]; exact hd), fun hfalse => ?_⟩
      simp at hfalse
    · have hd0 : hasDictUrl pl.songs ((hydrateSongDict d0 n1).1).url = false := by
        simpa using hd
      rw [add_song_dict_not_mem pl d0 n1 hd0]
      refine ⟨?_, fun _ => rfl⟩
      apply add_song_dict_mem
      show ((hydrateSongDict d0 n1).1.url == ((hydrateSongDict d0 n2).1).url ||
          hasDictUrl pl.songs ((hydrateSongDict d0 n2).1).url) = true
      rw [hu1, hu2]
      simp

/-- Witness for the amended C4 at a concrete path entry. -/
theorem c4_readd_same_entry_rejected_witness :
    ((⟨"p", "n", [], 0, 0, -1⟩ : PlaylistM).add_song (.path "a") 5).1.add_song (.path "a") 6 =
      (((⟨"p", "n", [], 0, 0, -1⟩ : PlaylistM).add_song (.path "a") 5).1, false) ∧
    ((⟨"p", "n", [], 0, 0, -1⟩ : PlaylistM).add_song (.path "a") 5).1 =
      ⟨"p", "n", [.path "a"], 0, 5, -1⟩ :=
  ⟨(c4_readd_same_entry_rejected ⟨"p", "n", [], 0, 0, -1⟩ (.path "a") 5 6).1,
   ((c4_readd_same_entry_rejected ⟨"p", "n", [], 0, 0, -1⟩ (.path "a") 5 6).2
      (by decide)).trans (by decide)⟩

/-- The urls of the record entries, in order (claim vocabulary, not code). -/
def dictUrls (songs : List SongEntry) : List (Option String) :=
  songs.filterMap (fun s =>
    match s with
    | .dict d => some d.url
    | .path _ => none)

/-- The bare-string entries, in order (claim vocabulary, not code). -/
def pathKeys (songs : List SongEntry) : List String :=
  songs.filterMap (fun s =>
    match s with
    | .path p => some p
    | .dict _ => none)

theorem pathKeys_cons_path (q : String) (rest : List SongEntry) :
    pathKeys (.path q :: rest) = q :: pathKeys rest := rfl

theorem pathKeys_cons_dict (d : SongDict) (rest : List SongEntry) :
    pathKeys (.dict d :: rest) = pathKeys rest := rfl

theorem dictUrls_cons_path (q : String) (rest : List SongEntry) :
    dictUrls (.path q :: rest) = dictUrls rest := rfl

theorem dictUrls_cons_dict (d : SongDict) (rest : List SongEntry) :
    dictUrls (.dict d :: rest) = d.url :: dictUrls rest := rfl

theorem mem_pathKeys (songs : List SongEntry) (p : String) :
    p ∈ pathKeys songs ↔ SongEntry.path p ∈ songs := by
  induction songs with
  | nil => simp [pathKeys]
  | cons e rest ih =>
    cases e with
    | path q => simp [pathKeys_cons_path, List.mem_cons, ih]
    | dict d => simp [pathKeys_cons_dict, List.mem_cons, ih]

theorem hasDictUrl_iff (songs : List SongEntry) (u : Option String) :
    hasDictUrl songs u = true ↔ u ∈ dictUrls songs := by
  induction songs with
  | nil => simp [hasDictUrl, dictUrls]
  | cons e rest ih =>
    cases e with
    | path q =>
      rw [dictUrls_cons_path,
        show hasDictUrl (SongEntry.path q :: rest) u = hasDictUrl rest u from rfl]
      exact ih
    | dict d =>
      rw [dictUrls_cons_dict,
        show hasDictUrl (SongEntry.dict d :: rest) u =
          ((d.url == u) || hasDictUrl rest u) from rfl,
        Bool.or_eq_true, ih, List.mem_cons]
      constructor
      · rintro (hb | hm)
        · exact Or.inl (eq_of_beq hb).symm
        · exact Or.inr hm
      · rintro (he | hm)
        · exact Or.inl (by rw [he]; exact beq_self_eq_true d.url)
        · exact Or.inr hm

/-- Claim C5 (counterexample): after two adds, a legacy bare-string entry and
a record entry with the same url coexist, so the songs list has two entries
sharing a url. -/
theorem c5_mixed_kind_urls_collide :
    (((⟨"q", "n", [], 0, 0, -1⟩ : PlaylistM).add_song (.path "y") 5).1.add_song
        (.dict ⟨some "y", none, none, none, none⟩) 6).1.songs.map entryUrlKey =
      [some "y", some "y"] ∧
    ¬ ((((⟨"q", "n", [], 0, 0, -1⟩ : PlaylistM).add_song (.path "y") 5).1.add_song
        (.dict ⟨some "y", none, none, none, none⟩) 6).1.songs.map entryUrlKey).Nodup := by
  constructor
  · decide
  · decide

/-- Claim C5 (amended): `add_song` preserves url uniqueness per representation
kind: the record entries keep pairwise-distinct urls and the bare-string
entries stay pairwise distinct, but a record and a bare string may share a
url. -/
theorem c5_per_kind_url_uniqueness (pl : PlaylistM) (entry : SongEntry) (now : Int)
    (hd : (dictUrls pl.songs).Nodup) (hp : (pathKeys pl.songs).Nodup) :
    (dictUrls ((pl.add_song entry now).1).songs).Nodup ∧
    (pathKeys ((pl.add_song entry now).1).songs).Nodup := by
  cases entry with
  | path p =>
    by_cases hm : SongEntry.path p ∈ pl.songs
    · rw [add_song_path_mem pl p now hm]
      exact ⟨hd, hp⟩
    · rw [add_song_path_not_mem pl p now hm]
      show (dictUrls (SongEntry.path p :: pl.songs)).Nodup ∧
        (pathKeys (SongEntry.path p :: pl.songs)).Nodup
      rw [dictUrls_cons_path, pathKeys_cons_path]
      refine ⟨hd, List.Nodup.cons ?_ hp⟩
      intro hmem
      exact hm ((mem_pathKeys pl.songs p).mp hmem)
  | dict d0 =>
    by_cases hdd : hasDictUrl pl.songs ((hydrateSongDict d0 now).1).url = true
    · rw [add_song_dict_mem pl d0 now hdd]
      exact ⟨hd, hp⟩
    · have hdd0 : hasDictUrl pl.songs ((hydrateSongDict d0 now).1).url = false := by
        simpa using hdd
      rw [add_song_dict_not_mem pl d0 now hdd0]
      show (dictUrls (SongEntry.dict (hydrateSongDict d0 now).1 :: pl.songs)).Nodup ∧
        (pathKeys (SongEntry.dict (hydrateSongDict d0 now).1 :: pl.songs)).Nodup
      rw [dictUrls_cons_dict, pathKeys_cons_dict]
      refine ⟨List.Nodup.cons ?_ hd, hp⟩
      intro hmem
      exact hdd ((hasDictUrl_iff pl.songs _).mpr hmem)

/-- Witness for the amended C5 at a concrete record entry. -/
theorem c5_per_kind_url_uniqueness_witness :
    (dictUrls (((⟨"q", "n", [.path "y"], 0, 0, -1⟩ : PlaylistM).add_song
        (.dict ⟨some "y", none, none, none, none⟩) 6).1).songs).Nodup ∧
    (pathKeys (((⟨"q", "n", [.path "y"], 0, 0, -1⟩ : PlaylistM).add_song
        (.dict ⟨some "y", none, none, none, none⟩) 6).1).songs).Nodup :=
  c5_per_kind_url_uniqueness ⟨"q", "n", [.path "y"], 0, 0, -1⟩
    (.dict ⟨some "y", none, none, none, none⟩) 6 (by decide) (by decide)

/-! ### Claim C6: reorder accepts set equality, not permutation -/

/-- Claim C6 (counterexample): `reorder_songs` accepts a list that is not a
permutation of the current songs - a duplicate-padded list with the same
element set - and replaces the songs with it while reporting success. -/
theorem c6_reorder_accepts_non_permutation :
    (⟨"r", "n", [.path "a", .path "b"], 0, 0, -1⟩ : PlaylistM).reorder_songs
        [.path "a", .path "a", .path "b"] 5 =
      .ok (⟨"r", "n", [.path "a", .path "a", .path "b"], 0, 5, -1⟩, true) ∧
    ¬ List.Perm [SongEntry.path "a", .path "a", .path "b"]
        [SongEntry.path "a", .path "b"] := by
  constructor
  · rfl
  · decide

theorem sameElems_iff (l1 l2 : List SongEntry) :
    sameElems l1 l2 = true ↔ ∀ x : SongEntry, x ∈ l1 ↔ x ∈ l2 := by
  unfold sameElems
  rw [Bool.and_eq_true, List.all_eq_true, List.all_eq_true]
  constructor
  · rintro ⟨h1, h2⟩ x
    constructor
    · intro hx
      exact List.elem_iff.mp (h1 x hx)
    · intro hx
      exact List.elem_iff.mp (h2 x hx)
  · intro h
    constructor
    · intro x hx
      exact List.elem_iff.mpr ((h x).mp hx)
    · intro x hx
      exact List.elem_iff.mpr ((h x).mpr hx)

theorem sameStrElems_iff (l1 l2 : List String) :
    sameStrElems l1 l2 = true ↔ ∀ s : String, s ∈ l1 ↔ s ∈ l2 := by
  unfold sameStrElems
  rw [Bool.and_eq_true, List.all_eq_true, List.all_eq_true]
  constructor
  · rintro ⟨h1, h2⟩ s
    constructor
    · intro hs
      exact List.elem_iff.mp (h1 s hs)
    · intro hs
      exact List.elem_iff.mp (h2 s hs)
  · intro h
    constructor
    · intro s hs
      exact List.elem_iff.mpr ((h s).mp hs)
    · intro s hs
      exact List.elem_iff.mpr ((h s).mpr hs)

/-- Claim C6 (amended): both reorder operations compare element sets, not
permutations.  `reorder_songs` raises (TypeError from `set()` on a record
entry) unless both lists hold only hashable bare strings; on hashable lists
it replaces the songs exactly when the two element sets coincide, returning
false and leaving the state unchanged otherwise.  `reorder_playlists`
replaces the order exactly when the id sets coincide (and then saves),
returning false without saving otherwise. -/
theorem c6_reorder_checks_set_equality (pl : PlaylistM) (ns : List SongEntry)
    (st : PlaylistsM) (no : List String) (now : Int) :
    ((allHashable ns && allHashable pl.songs) = false →
      pl.reorder_songs ns now = .error ()) ∧
    ((allHashable ns && allHashable pl.songs) = true →
      (sameElems ns pl.songs = true ↔ ∀ x : SongEntry, x ∈ ns ↔ x ∈ pl.songs) ∧
      (sameElems ns pl.songs = true →
        pl.reorder_songs ns now = .ok ({ pl with songs := ns, updated_at := now }, true)) ∧
      (sameElems ns pl.songs = false → pl.reorder_songs ns now = .ok (pl, false))) ∧
    (sameStrElems no st.order = true ↔ ∀ s : String, s ∈ no ↔ s ∈ st.order) ∧
    (sameStrElems no st.order = true →
      st.reorder_playlists no = ({ st with order := no }, true, true)) ∧
    (sameStrElems no st.order = false →
      st.reorder_playlists no = (st, false, false)) := by
  refine ⟨?_, ?_, sameStrElems_iff no st.order, ?_, ?_⟩
  · intro hf
    unfold PlaylistM.reorder_songs
    rw [if_neg (by rw [hf]; simp)]
  · intro ht
    refine ⟨sameElems_iff ns pl.songs, ?_, ?_⟩
    · intro hs
      unfold PlaylistM.reorder_songs
      rw [if_pos ht, if_pos hs]
    · intro hs
      unfold PlaylistM.reorder_songs
      rw [if_pos ht, if_neg (by rw [hs]; simp)]
  · intro hs
    unfold PlaylistsM.reorder_playlists
    rw [if_pos hs]
  · intro hs
    unfold PlaylistsM.reorder_playlists
    rw [if_neg (by rw [hs]; simp)]

/-- Witness for the amended C6 on concrete lists. -/
theorem c6_reorder_checks_set_equality_witness :
    (⟨"r", "n", [.path "a"], 0, 0, -1⟩ : PlaylistM).reorder_songs [.path "a"] 5 =
      .ok (⟨"r", "n", [.path "a"], 0, 5, -1⟩, true) ∧
    (⟨[("p", ⟨"p", "n", [], 0, 0, -1⟩)], ["p"]⟩ : PlaylistsM).reorder_playlists ["p"] =
      (⟨[("p", ⟨"p", "n", [], 0, 0, -1⟩)], ["p"]⟩, true, true) := by
  constructor
  · have h := ((c6_reorder_checks_set_equality ⟨"r", "n", [.path "a"], 0, 0, -1⟩
        [.path "a"] ⟨[], []⟩ [] 5).2.1 (by decide)).2.1 (by decide)
    exact h.trans rfl
  · have h := (c6_reorder_checks_set_equality ⟨"r", "n", [], 0, 0, -1⟩ []
        ⟨[("p", ⟨"p", "n", [], 0, 0, -1⟩)], ["p"]⟩ ["p"] 0).2.2.2.1 (by decide)
    exact h.trans rfl

/-! ### Claim C8: `Song.from_dict` dispatch, totality, and defaults -/

theorem from_dict_eq (d : SongDict) (now : Int) :
    Song.from_dict d now =
      (if d.type.getD "local" = "local" then
        SongObj.localS (mkLocalSong (d.url.getD "") d.title (d.duration.getD 0) now)
      else
        SongObj.streamS (mkStreamSong (d.url.getD "") d.title (d.type.getD "local")
          (d.duration.getD 0) d.thumbnail_url now)) := rfl

theorem mkStreamSong_title (u : String) (title : Option String) (t : String)
    (dur : Int) (th : Option String) (now : Int) :
    (mkStreamSong u title t dur th now).title =
      (match title with
       | some s => if s = "" then "加载中…" else s
       | none => "加载中…") := rfl

theorem mkLocalSong_title (p : String) (title : Option String) (dur : Int) (now : Int) :
    (mkLocalSong p title dur now).title =
      (match title with
       | some s => if s = "" then localTitleFallback p else s
       | none => localTitleFallback p) := rfl

theorem mkStreamSong_thumb (u : String) (title : Option String) (t : String)
    (dur : Int) (th : Option String) (now : Int) :
    (mkStreamSong u title t dur th now).thumbnail_url =
      (if optStrFalsy th then
        (if t = "youtube" ∧ extractVideoId u ≠ "" then some (hqThumbUrl (extractVideoId u))
         else th)
      else th) := rfl

/-- Claim C8: `Song.from_dict` on any record dispatches to a `LocalSong` when
the `type` field is missing or `"local"` and to a `StreamSong` carrying that
type as its stream type otherwise, and every field-missing case falls back
to a default: the filename-derived local title, the placeholder stream
title, zero duration, and - when the stream url yields no video id - an
empty `video_id` with the thumbnail left as supplied. -/
theorem c8_from_dict_dispatch_defaults (d : SongDict) (now : Int) :
    ((d.type = none ∨ d.type = some "local") →
      Song.from_dict d now =
        .localS (mkLocalSong (d.url.getD "") d.title (d.duration.getD 0) now)) ∧
    (∀ t : String, d.type = some t → t ≠ "local" →
      Song.from_dict d now =
        .streamS (mkStreamSong (d.url.getD "") d.title t (d.duration.getD 0)
          d.thumbnail_url now) ∧
      (mkStreamSong (d.url.getD "") d.title t (d.duration.getD 0)
        d.thumbnail_url now).stream_type = t) ∧
    ((d.title = none ∨ d.title = some "") →
      (mkLocalSong (d.url.getD "") d.title (d.duration.getD 0) now).title =
        localTitleFallback (d.url.getD "") ∧
      ∀ t : String,
        (mkStreamSong (d.url.getD "") d.title t (d.duration.getD 0)
          d.thumbnail_url now).title = "加载中…") ∧
    (d.duration = none →
      (mkLocalSong (d.url.getD "") d.title (d.duration.getD 0) now).duration = 0 ∧
      ∀ t : String,
        (mkStreamSong (d.url.getD "") d.title t (d.duration.getD 0)
          d.thumbnail_url now).duration = 0) ∧
    (extractVideoId (d.url.getD "") = "" →
      ∀ t : String,
        (mkStreamSong (d.url.getD "") d.title t (d.duration.getD 0)
          d.thumbnail_url now).video_id = "" ∧
        (mkStreamSong (d.url.getD "") d.title t (d.duration.getD 0)
          d.thumbnail_url now).thumbnail_url = d.thumbnail_url) := by
  refine ⟨?_, ?_, ?_, ?_, ?_⟩
  · intro h
    have ht : d.type.getD "local" = "local" := by
      rcases h with h | h <;> rw [h] <;> rfl
    rw [from_dict_eq, ht, if_pos rfl]
  · intro t ht htl
    have hg : d.type.getD "local" = t := by rw [ht]; rfl
    refine ⟨?_, mkStreamSong_stream_type _ _ _ _ _ _⟩
    rw [from_dict_eq, hg, if_neg htl]
  · intro h
    constructor
    · rcases h with h | h <;> rw [mkLocalSong_title, h] <;> rfl
    · intro t
      rcases h with h | h <;> rw [mkStreamSong_title, h] <;> rfl
  · intro h
    rw [h]
    exact ⟨rfl, fun t => rfl⟩
  · intro hv t
    constructor
    · rw [mkStreamSong_video_id]
      exact hv
    · rw [mkStreamSong_thumb, hv]
      simp

/-- Witness for C8: a local dispatch with a filename-derived title and a
stream dispatch with defaults. -/
theorem c8_from_dict_dispatch_defaults_witness :
    Song.from_dict ⟨some "a/b.mp3", none, none, none, none⟩ 7 =
      .localS (mkLocalSong "a/b.mp3" none 0 7) ∧
    Song.from_dict ⟨some "u", some "radio", none, none, none⟩ 7 =
      .streamS (mkStreamSong "u" none "radio" 0 none 7) ∧
    (mkLocalSong "a/b.mp3" none 0 7).title = localTitleFallback "a/b.mp3" := by
  refine ⟨?_, ?_, ?_⟩
  · exact (c8_from_dict_dispatch_defaults ⟨some "a/b.mp3", none, none, none, none⟩ 7).1
      (Or.inl rfl)
  · exact ((c8_from_dict_dispatch_defaults ⟨some "u", some "radio", none, none, none⟩ 7).2.1
      "radio" rfl (by decide)).1
  · exact ((c8_from_dict_dispatch_defaults ⟨some "a/b.mp3", none, none, none, none⟩ 7).2.2.1
      (Or.inl rfl)).1

/-! ### Claim C10: `Playlists.remove_song_at_index` save frame -/

/-- Claim C10: when the playlist exists and the index is in bounds,
`Playlists.remove_song_at_index` removes the entry from the in-memory list
and returns it, with the save flag exactly the removed entry's truthiness;
for a falsy removed entry (an empty-string path) the save is skipped and the
returned value is as falsy as the not-found result `none`. -/
theorem c10_remove_saves_only_truthy (st : PlaylistsM) (pid : String) (pl : PlaylistM)
    (index : Int) (now : Int) (e : SongEntry)
    (hlk : st.playlists.lookup pid = some pl)
    (h0 : 0 ≤ index) (hlt : index < (pl.songs.length : Int))
    (he : pl.songs.get? index.toNat = some e) :
    st.remove_song_at_index pid index now =
      ({ st with playlists := updAssoc pid { pl with songs := pl.songs.eraseIdx index.toNat, updated_at := now } st.playlists },
        some e, pyTruthyEntry e) ∧
    (pyTruthyEntry e = false →
      pyTruthyOpt (st.remove_song_at_index pid index now).2.1 = pyTruthyOpt none ∧
      (st.remove_song_at_index pid index now).2.2 = false) := by
  have hr : pl.remove_song_at_index index now =
      ({ pl with songs := pl.songs.eraseIdx index.toNat, updated_at := now }, some e) := by
    unfold PlaylistM.remove_song_at_index
    rw [if_pos ⟨h0, hlt⟩, he]
  have hmain : st.remove_song_at_index pid index now =
      ({ st with playlists := updAssoc pid { pl with songs := pl.songs.eraseIdx index.toNat, updated_at := now } st.playlists },
        some e, pyTruthyEntry e) := by
    unfold PlaylistsM.remove_song_at_index
    rw [hlk]
    show (let r := pl.remove_song_at_index index now
      let st2 : PlaylistsM := { playlists := updAssoc pid r.1 st.playlists, order := st.order }
      match r.2 with
      | none => (st2, none, false)
      | some x => (st2, some x, pyTruthyEntry x)) = _
    rw [hr]
  refine ⟨hmain, fun hf => ?_⟩
  rw [hmain]
  exact ⟨hf, hf⟩

/-- Witness for C10: removing a falsy empty-path entry mutates memory but
reports no save. -/
theorem c10_remove_saves_only_truthy_witness :
    (⟨[("p", ⟨"p", "n", [.path ""], 0, 0, -1⟩)], ["p"]⟩ : PlaylistsM).remove_song_at_index
        "p" 0 9 =
      (⟨[("p", ⟨"p", "n", [], 0, 9, -1⟩)], ["p"]⟩, some (.path ""), false) ∧
    pyTruthyOpt (some (SongEntry.path "")) = pyTruthyOpt none := by
  have h := c10_remove_saves_only_truthy
    ⟨[("p", ⟨"p", "n", [.path ""], 0, 0, -1⟩)], ["p"]⟩ "p"
    ⟨"p", "n", [.path ""], 0, 0, -1⟩ 0 9 (.path "")
    (by decide) (by decide) (by decide) (by decide)
  exact ⟨h.1.trans (by decide), by decide⟩

/-! ### Claim C9: loading the legacy bare-array store shape -/

/-- The playlist object `load` registers for one record: `from_dict` (whose
constructor already hydrates once) followed by the loop's second hydration
(claim vocabulary, not code). -/
def regPl (d : PlaylistDict) (now : Int) : PlaylistM :=
  ((PlaylistM.from_dict d now).hydrate now).1

theorem hydrate_id (pl : PlaylistM) (now : Int) : ((pl.hydrate now).1).id = pl.id := by
  show ((if (hydrateSongs pl.songs now).2 then
      ({ pl with songs := (hydrateSongs pl.songs now).1, updated_at := now }, true)
    else ({ pl with songs := (hydrateSongs pl.songs now).1 }, false)).1).id = pl.id
  split
  · rfl
  · rfl

theorem regPl_id (d : PlaylistDict) (now : Int) :
    (regPl d now).id = pyOrStr d.id (toString now) := by
  have h : regPl d now =
      ((({ id := pyOrStr d.id (toString now), name := d.name.getD "未命名歌单",
            songs := d.songs, created_at := pyOrInt d.created_at now,
            updated_at := pyOrInt d.updated_at now,
            current_playing_index := d.current_playing_index.getD (-1) } :
          PlaylistM).hydrate now).1.hydrate now).1 := rfl
  rw [h, hydrate_id, hydrate_id]

theorem loadStep_eq (now : Int) (acc : LoadAcc) (d : PlaylistDict) :
    loadStep now acc d =
      { playlists := updAssoc (regPl d now).id (regPl d now) acc.playlists,
        order := if (regPl d now).id ∈ acc.order then acc.order
          else acc.order ++ [(regPl d now).id],
        changed := acc.changed || ((PlaylistM.from_dict d now).hydrate now).2 } := rfl

theorem loadFold_order (now : Int) (ps : List PlaylistDict) :
    ∀ acc : LoadAcc, (∀ d ∈ ps, (regPl d now).id ∉ acc.order) →
      (ps.map (fun d => (regPl d now).id)).Nodup →
      (ps.foldl (loadStep now) acc).order =
        acc.order ++ ps.map (fun d => (regPl d now).id) := by
  induction ps with
  | nil =>
    intro acc _ _
    simp
  | cons d rest ih =>
    intro acc hdisj hnd
    rw [List.map_cons] at hnd
    have hnd' := List.nodup_cons.mp hnd
    have hstep : (loadStep now acc d).order = acc.order ++ [(regPl d now).id] := by
      rw [loadStep_eq]
      show (if (regPl d now).id ∈ acc.order then acc.order
        else acc.order ++ [(regPl d now).id]) = _
      rw [if_neg (hdisj d (List.mem_cons_self d rest))]
    have hdisj' : ∀ d2 ∈ rest, (regPl d2 now).id ∉ (loadStep now acc d).order := by
      intro d2 hd2
      rw [hstep, List.mem_append, List.mem_singleton]
      rintro (h1 | h2)
      · exact hdisj d2 (List.mem_cons_of_mem d hd2) h1
      · exact hnd'.1 (by rw [← h2]; exact List.mem_map_of_mem _ hd2)
    rw [List.foldl_cons, ih (loadStep now acc d) hdisj' hnd'.2, hstep, List.map_cons,
      List.append_assoc]
    rfl

theorem loadFold_lookup_none (now : Int) (ps : List PlaylistDict) :
    ∀ acc : LoadAcc, ∀ k : String, acc.playlists.lookup k = none →
      (∀ d ∈ ps, (regPl d now).id ≠ k) →
      (ps.foldl (loadStep now) acc).playlists.lookup k = none := by
  induction ps with
  | nil =>
    intro acc k ha _
    exact ha
  | cons d rest ih =>
    intro acc k ha h
    rw [List.foldl_cons]
    apply ih
    · rw [loadStep_eq]
      show ((updAssoc (regPl d now).id (regPl d now) acc.playlists).lookup k) = none
      rw [lookup_updAssoc, if_neg (fun hk => h d (List.mem_cons_self d rest) hk.symm)]
      exact ha
    · intro d2 hd2
      exact h d2 (List.mem_cons_of_mem d hd2)

theorem loadFold_lookup_isSome (now : Int) (ps : List PlaylistDict) :
    ∀ acc : LoadAcc, ∀ k : String,
      ((acc.playlists.lookup k).isSome = true ∨ ∃ d ∈ ps, (regPl d now).id = k) →
      ((ps.foldl (loadStep now) acc).playlists.lookup k).isSome = true := by
  induction ps with
  | nil =>
    intro acc k h
    rcases h with h | ⟨d, hd, _⟩
    · exact h
    · simp at hd
  | cons d rest ih =>
    intro acc k h
    rw [List.foldl_cons]
    apply ih
    by_cases hk : (regPl d now).id = k
    · left
      rw [loadStep_eq]
      show ((updAssoc (regPl d now).id (regPl d now) acc.playlists).lookup k).isSome = true
      rw [lookup_updAssoc, if_pos hk.symm]
      rfl
    · rcases h with h | ⟨d2, hd2, hid⟩
      · left
        rw [loadStep_eq]
        show ((updAssoc (regPl d now).id (regPl d now) acc.playlists).lookup k).isSome = true
        rw [lookup_updAssoc, if_neg (fun he => hk he.symm)]
        exact h
      · rcases List.mem_cons.mp hd2 with he | he
        · exact absurd (he ▸ hid) hk
        · exact Or.inr ⟨d2, he, hid⟩

theorem loadFrom_jlist_eq (ps : List PlaylistDict) (now : Int) :
    PlaylistsM.loadFrom (.content (.jlist ps)) now =
      (if ((ps.foldl (loadStep now) ⟨[], [], false⟩).playlists.lookup "default").isSome then
        ((⟨(ps.foldl (loadStep now) ⟨[], [], false⟩).playlists,
          (ps.foldl (loadStep now) ⟨[], [], false⟩).order⟩ : PlaylistsM),
         (ps.foldl (loadStep now) ⟨[], [], false⟩).changed)
      else
        ((⟨updAssoc "default" (mkPlaylist (some "default") "默认歌单" [] none none (-1) now)
            (ps.foldl (loadStep now) ⟨[], [], false⟩).playlists,
          if "default" ∈ (ps.foldl (loadStep now) ⟨[], [], false⟩).order then
            (ps.foldl (loadStep now) ⟨[], [], false⟩).order
          else "default" :: (ps.foldl (loadStep now) ⟨[], [], false⟩).order⟩ : PlaylistsM),
         true)) := rfl

/-- Claim C9: loading a store file holding a bare JSON array of playlist
records with pairwise-distinct non-empty ids succeeds: the resulting order
is exactly the loaded ids in file order with `"default"` prepended when
absent, the default playlist is present in the id registry, and when it had
to be created the load reports a save. -/
theorem c9_legacy_array_load (ps : List PlaylistDict) (now : Int)
    (hids : ∀ d ∈ ps, ∃ i, d.id = some i ∧ i ≠ "")
    (hnd : (ps.map (fun d => d.id.getD "")).Nodup) :
    (PlaylistsM.loadFrom (.content (.jlist ps)) now).1.order =
      (if "default" ∈ ps.map (fun d => d.id.getD "") then ps.map (fun d => d.id.getD "")
       else "default" :: ps.map (fun d => d.id.getD "")) ∧
    ((PlaylistsM.loadFrom (.content (.jlist ps)) now).1.playlists.lookup
      "default").isSome = true ∧
    ("default" ∉ ps.map (fun d => d.id.getD "") →
      (PlaylistsM.loadFrom (.content (.jlist ps)) now).2 = true) := by
  have hmapeq : ps.map (fun d => (regPl d now).id) = ps.map (fun d => d.id.getD "") := by
    apply List.map_congr_left
    intro d hd
    rcases hids d hd with ⟨i, hi, hne⟩
    rw [regPl_id, hi]
    show (if i = "" then toString now else i) = (some i).getD ""
    rw [if_neg hne]
    rfl
  have horder : (ps.foldl (loadStep now) ⟨[], [], false⟩).order =
      ps.map (fun d => d.id.getD "") := by
    have h := loadFold_order now ps ⟨[], [], false⟩ (fun d _ => List.not_mem_nil _)
      (by rw [hmapeq]; exact hnd)
    rw [show (⟨[], [], false⟩ : LoadAcc).order = [] from rfl, List.nil_append, hmapeq] at h
    exact h
  by_cases hdef : "default" ∈ ps.map (fun d => d.id.getD "")
  · rcases List.mem_map.mp hdef with ⟨d, hd, hgd⟩
    rcases hids d hd with ⟨i, hi, hne⟩
    have hreg : (regPl d now).id = "default" := by
      rw [regPl_id, hi]
      show (if i = "" then toString now else i) = "default"
      rw [if_neg hne]
      rw [hi] at hgd
      exact hgd
    have hsome := loadFold_lookup_isSome now ps ⟨[], [], false⟩ "default"
      (Or.inr ⟨d, hd, hreg⟩)
    rw [loadFrom_jlist_eq, if_pos hsome]
    refine ⟨?_, hsome, fun habs => absurd hdef habs⟩
    rw [if_pos hdef]
    exact horder
  · have hne2 : ∀ d ∈ ps, (regPl d now).id ≠ "default" := by
      intro d hd heq
      apply hdef
      rcases hids d hd with ⟨i, hi, hne⟩
      have hi2 : d.id.getD "" = "default" := by
        rw [hi]
        show i = "default"
        rw [regPl_id, hi] at heq
        have h2 : (if i = "" then toString now else i) = "default" := heq
        rw [if_neg hne] at h2
        exact h2
      exact hi2 ▸ List.mem_map_of_mem _ hd
    have hnone := loadFold_lookup_none now ps ⟨[], [], false⟩ "default" rfl hne2
    rw [loadFrom_jlist_eq, if_neg (by rw [hnone]; simp)]
    refine ⟨?_, ?_, fun _ => rfl⟩
    · show (if "default" ∈ (ps.foldl (loadStep now) ⟨[], [], false⟩).order then
          (ps.foldl (loadStep now) ⟨[], [], false⟩).order
        else "default" :: (ps.foldl (loadStep now) ⟨[], [], false⟩).order) = _
      rw [horder, if_neg hdef]
    · show ((updAssoc "default" (mkPlaylist (some "default") "默认歌单" [] none none (-1) now)
          (ps.foldl (loadStep now) ⟨[], [], false⟩).playlists).lookup "default").isSome = true
      rw [lookup_updAssoc, if_pos rfl]
      rfl

/-- Witness for C9: a one-record legacy array whose id is not the default. -/
theorem c9_legacy_array_load_witness :
    (PlaylistsM.loadFrom (.content (.jlist [⟨some "mine", some "Mine", [], some 1, some 2,
        some 0⟩])) 7).1.order = ["default", "mine"] ∧
    ((PlaylistsM.loadFrom (.content (.jlist [⟨some "mine", some "Mine", [], some 1, some 2,
        some 0⟩])) 7).1.playlists.lookup "default").isSome = true ∧
    (PlaylistsM.loadFrom (.content (.jlist [⟨some "mine", some "Mine", [], some 1, some 2,
        some 0⟩])) 7).2 = true := by
  have h := c9_legacy_array_load [⟨some "mine", some "Mine", [], some 1, some 2, some 0⟩] 7
    (by intro d hd
        refine ⟨"mine", ?_, by decide⟩
        rcases List.mem_singleton.mp hd with rfl
        rfl)
    (by decide)
  refine ⟨h.1.trans (by decide), h.2.1, h.2.2 (by decide)⟩
